import Mathlib

/-!
Verification development for the bitchat-web cryptographic core.

The TypeScript source is embedded shallowly:
* `Uint8Array` contents are `List Nat` with entries `< 256` (writes truncate
  with `% 256`, exactly as a `Uint8Array` store does);
* JavaScript 32-bit integer operations are `Nat` operations followed by
  `% 2^32` where the source relies on 32-bit wrapping;
* `bigint` counters are plain `Nat` (they are non-negative in every reachable
  state of the source);
* JS strings are `List Char`;
* fallible methods return `Except` carrying the `NoiseError` / `NostrProtocolError`
  code they would throw;
* platform and library crypto primitives (ChaCha20-Poly1305,
  XChaCha20-Poly1305, SHA-256, secp256k1 ECDH, HKDF, UTF-8 codecs, `btoa` /
  `atob`) are opaque parameters of the embedded functions; concrete model
  instances are provided where a closed evaluation is needed.
-/

namespace Bitchat

/-- Truncation to an unsigned 32-bit value, the view under which JavaScript
bitwise operators act. -/
def js32 (n : Nat) : Nat := n % 4294967296

/-- Big-endian 4-byte encoding, as produced by `DataView.setUint32(0, n, false)`. -/
def be32 (n : Nat) : List Nat :=
  [n / 16777216 % 256, n / 65536 % 256, n / 256 % 256, n % 256]

/-- Big-endian read of a 4-byte list, as `DataView.getUint32(0, false)`. -/
def beToNat (l : List Nat) : Nat :=
  l.foldl (fun a b => a * 256 + b % 256) 0

/-- Little-endian 8-byte encoding of a counter, as
`DataView.setBigUint64(4, n, true)` stores it. -/
def le64 (n : Nat) : List Nat :=
  [n % 256, n / 256 % 256, n / 65536 % 256, n / 16777216 % 256,
   n / 4294967296 % 256, n / 1099511627776 % 256,
   n / 281474976710656 % 256, n / 72057594037927936 % 256]

/-- The 12-byte AEAD nonce used by `NoiseCipherState`: four zero bytes
followed by the 8-byte little-endian counter. -/
def nonceData12 (n : Nat) : List Nat := [0, 0, 0, 0] ++ le64 n

/-- Error codes of `NoiseError` in `src/crypto/noise/types.ts`. -/
inductive NoiseErr where
  | UNINITIALIZED_CIPHER
  | INVALID_CIPHERTEXT
  | HANDSHAKE_COMPLETE
  | HANDSHAKE_NOT_COMPLETE
  | MISSING_LOCAL_STATIC_KEY
  | MISSING_KEYS
  | INVALID_MESSAGE
  | AUTHENTICATION_FAILURE
  | INVALID_PUBLIC_KEY
  | REPLAY_DETECTED
  | NONCE_EXCEEDED
  deriving DecidableEq, Repr

/-- Signature of an AEAD encryption primitive: key, 12-byte nonce, associated
data, plaintext, returning ciphertext with the 16-byte tag appended
(`chacha20poly1305(...).encrypt` from noble-ciphers). -/
abbrev AeadEnc := List Nat → List Nat → List Nat → List Nat → List Nat

/-- Signature of an AEAD decryption primitive; `none` models the throw on
authentication failure. -/
abbrev AeadDec := List Nat → List Nat → List Nat → List Nat → Option (List Nat)

/-- State of `NoiseCipherState` (`src/crypto/noise/NoiseCipherState.ts`). -/
structure NoiseCipherState where
  key : Option (List Nat)
  nonce : Nat
  useExtractedNonce : Bool
  highestReceivedNonce : Nat
  replayWindow : List Nat
  deriving DecidableEq, Repr

/-- Fresh cipher state as built by `new NoiseCipherState(key, useExtractedNonce)`. -/
def NoiseCipherState.mk0 (key : Option (List Nat)) (useExtractedNonce : Bool) :
    NoiseCipherState :=
  { key := key
    nonce := 0
    useExtractedNonce := useExtractedNonce
    highestReceivedNonce := 0
    replayWindow := List.replicate 128 0 }

/-- Embedding of `NoiseCipherState.encrypt`.  The result pairs the returned
value (or thrown error code) with the post-call state. -/
def NoiseCipherState.encrypt (aeadEnc : AeadEnc) (s : NoiseCipherState)
    (plaintext associatedData : List Nat) :
    Except NoiseErr (List Nat) × NoiseCipherState :=
  match s.key with
  | none => (.error .UNINITIALIZED_CIPHER, s)
  | some k =>
    if s.nonce > 4294967295 - 1 then
      (.error .NONCE_EXCEEDED, s)
    else
      let ciphertext := aeadEnc k (nonceData12 s.nonce) associatedData plaintext
      let s2 := { s with nonce := s.nonce + 1 }
      if s.useExtractedNonce then
        (.ok (be32 s.nonce ++ ciphertext), s2)
      else
        (.ok ciphertext, s2)

/-- Embedding of the private `NoiseCipherState.isValidNonce` check (pure). -/
def NoiseCipherState.isValidNonce (s : NoiseCipherState) (receivedNonce : Nat) :
    Bool :=
  if s.highestReceivedNonce ≥ 1024 ∧
      receivedNonce ≤ s.highestReceivedNonce - 1024 then
    false
  else if receivedNonce > s.highestReceivedNonce then
    true
  else
    let offset := s.highestReceivedNonce - receivedNonce
    let byteIndex := offset / 8
    let bitIndex := offset % 8
    ((s.replayWindow.getD byteIndex 0) &&& (1 <<< bitIndex)) == 0

/-- One byte of the in-place window shift performed by `markNonceAsSeen`
when a newer nonce arrives.  The downward loop of the source reads only
indices at or below the one being written, so it is equivalent to this
per-index map over the original window.  The `% 256` is the `Uint8Array`
store truncation. -/
def shiftedByte (w : List Nat) (shift i : Nat) : Nat :=
  let q := shift / 8
  let r := shift % 8
  if i < q then 0
  else
    let b := (w.getD (i - q) 0) >>> r
    let b2 :=
      if i - q > 0 ∧ r ≠ 0 then b ||| ((w.getD (i - q - 1) 0) <<< (8 - r))
      else b
    b2 % 256

/-- The shifted replay window (all 128 bytes). -/
def shiftWindow (w : List Nat) (shift : Nat) : List Nat :=
  (List.range 128).map (shiftedByte w shift)

/-- Embedding of the private `NoiseCipherState.markNonceAsSeen`. -/
def NoiseCipherState.markNonceAsSeen (s : NoiseCipherState)
    (receivedNonce : Nat) : NoiseCipherState :=
  if receivedNonce > s.highestReceivedNonce then
    let shift := receivedNonce - s.highestReceivedNonce
    let w :=
      if shift ≥ 1024 then List.replicate 128 0
      else shiftWindow s.replayWindow shift
    let w2 := w.set 0 ((w.getD 0 0) ||| 1)
    { s with highestReceivedNonce := receivedNonce, replayWindow := w2 }
  else
    let offset := s.highestReceivedNonce - receivedNonce
    let byteIndex := offset / 8
    let bitIndex := offset % 8
    { s with
      replayWindow :=
        s.replayWindow.set byteIndex
          (((s.replayWindow.getD byteIndex 0) ||| (1 <<< bitIndex)) % 256) }

/-- Embedding of `NoiseCipherState.decrypt`.  The result pairs the returned
plaintext (or thrown error code) with the post-call state. -/
def NoiseCipherState.decrypt (aeadDec : AeadDec) (s : NoiseCipherState)
    (ciphertext associatedData : List Nat) :
    Except NoiseErr (List Nat) × NoiseCipherState :=
  match s.key with
  | none => (.error .UNINITIALIZED_CIPHER, s)
  | some k =>
    if ciphertext.length < 16 then
      (.error .INVALID_CIPHERTEXT, s)
    else if s.useExtractedNonce then
      if ciphertext.length < 4 + 16 then
        (.error .INVALID_CIPHERTEXT, s)
      else
        let decryptionNonce := beToNat (ciphertext.take 4)
        if ¬ s.isValidNonce decryptionNonce then
          (.error .REPLAY_DETECTED, s)
        else
          match aeadDec k (nonceData12 decryptionNonce) associatedData
              (ciphertext.drop 4) with
          | none => (.error .INVALID_CIPHERTEXT, s)
          | some plaintext =>
            (.ok plaintext,
              { s.markNonceAsSeen decryptionNonce with nonce := s.nonce + 1 })
    else
      match aeadDec k (nonceData12 s.nonce) associatedData ciphertext with
      | none => (.error .INVALID_CIPHERTEXT, s)
      | some plaintext => (.ok plaintext, { s with nonce := s.nonce + 1 })

/-- Concrete model AEAD used only to evaluate the embedding on closed inputs:
the ciphertext is the plaintext followed by a 16-byte tag derived from key,
nonce and associated data. -/
def tag16 (k n ad : List Nat) : List Nat :=
  List.replicate 16 ((k.foldl (· + ·) 0 + n.foldl (· + ·) 0 +
    ad.foldl (· + ·) 0) % 256)

/-- Model AEAD encryption (for closed evaluations). -/
def aeadEncM : AeadEnc := fun k n ad pt => pt ++ tag16 k n ad

/-- Model AEAD decryption: accepts exactly the outputs of `aeadEncM` for the
same key, nonce and associated data. -/
def aeadDecM : AeadDec := fun k n ad ct =>
  if ct.length ≥ 16 ∧ ct.drop (ct.length - 16) = tag16 k n ad then
    some (ct.take (ct.length - 16))
  else none

/-- A fixed 32-byte key for closed evaluations. -/
def keyM : List Nat := List.replicate 32 7

/-- Receive-side cipher state in extracted-nonce mode with key `keyM`,
as produced for the transport phase. -/
def rxStateM : NoiseCipherState := NoiseCipherState.mk0 (some keyM) true

/-- A wire record in extracted-nonce mode carrying nonce `n` and an authentic
encryption of plaintext `pt` under `keyM` (model AEAD). -/
def recordM (n : Nat) (pt : List Nat) : List Nat :=
  be32 n ++ aeadEncM keyM (nonceData12 n) [] pt

/-- Send-side cipher state with key `keyM` and an artificially advanced
counter, for closed evaluations of `encrypt`. -/
def txStateM (n : Nat) : NoiseCipherState :=
  { key := some keyM
    nonce := n
    useExtractedNonce := false
    highestReceivedNonce := 0
    replayWindow := List.replicate 128 0 }

/-- Role of a Noise handshake participant (`src/crypto/noise/types.ts`). -/
inductive NoiseRole where
  | initiator
  | responder
  deriving DecidableEq, Repr

/-- Handshake pattern (`src/crypto/noise/types.ts`). -/
inductive NoisePattern where
  | XX
  | IK
  | NK
  deriving DecidableEq, Repr

/-- The protocol name produced by `createProtocolName(pattern).fullName`. -/
def protocolFullName : NoisePattern → List Char
  | .XX => "Noise_XX_25519_ChaChaPoly_SHA256".data
  | .IK => "Noise_IK_25519_ChaChaPoly_SHA256".data
  | .NK => "Noise_NK_25519_ChaChaPoly_SHA256".data

/-- Initial hash of `NoiseSymmetricState`: the UTF-8 protocol name, zero-padded
to 32 bytes when it is at most 32 bytes long, otherwise its SHA-256.  All
three protocol names are ASCII, so `Char.toNat` is the UTF-8 byte. -/
def initialSymmetricHash (sha256 : List Nat → List Nat) (name : List Char) :
    List Nat :=
  let nameData := name.map Char.toNat
  if nameData.length ≤ 32 then nameData ++ List.replicate (32 - nameData.length) 0
  else sha256 nameData

/-- One `mixHash` step of `NoiseSymmetricState`: `hash = SHA-256(hash ‖ data)`. -/
def mixHash (sha256 : List Nat → List Nat) (hash data : List Nat) : List Nat :=
  sha256 (hash ++ data)

/-- Evolution of the symmetric-state hash performed by the private
`NoiseHandshakeState.mixPreMessageKeys`: the prologue is always mixed; the
remote static public key is mixed only when the pattern is IK or NK *and*
the role is initiator *and* a remote static key is configured.  No other
branch exists in the source; in particular the responder mixes nothing
beyond the prologue. -/
def mixPreMessageKeysHash (sha256 : List Nat → List Nat) (role : NoiseRole)
    (pattern : NoisePattern) (remoteStaticPublic : Option (List Nat))
    (prologueData h0 : List Nat) : List Nat :=
  let h1 := mixHash sha256 h0 prologueData
  if (pattern = .IK ∨ pattern = .NK) ∧ role = .initiator then
    match remoteStaticPublic with
    | some rs => mixHash sha256 h1 rs
    | none => h1
  else h1

/-- Symmetric-state hash right after the `NoiseHandshakeState` constructor
finishes (protocol-name initialization followed by `mixPreMessageKeys`).
`config.localStaticKey` plays no part: the source extracts the local static
public key only later, and `mixPreMessageKeys` never reads it. -/
def handshakeInitHash (sha256 : List Nat → List Nat) (role : NoiseRole)
    (pattern : NoisePattern) (remoteStaticKey : Option (List Nat))
    (prologue : Option (List Nat)) : List Nat :=
  mixPreMessageKeysHash sha256 role pattern remoteStaticKey (prologue.getD [])
    (initialSymmetricHash sha256 (protocolFullName pattern))

/-- JS `Map.has` over an insertion-ordered association list (the embedding of
a JavaScript `Map<string, number>`). -/
def mapHas (m : List (List Char × Nat)) (k : List Char) : Bool :=
  m.any (fun e => e.1 == k)

/-- JS `Map.set`: overwrites in place when the key is present, otherwise
appends at the end (JS maps preserve insertion order). -/
def mapSet (m : List (List Char × Nat)) (k : List Char) (v : Nat) :
    List (List Char × Nat) :=
  if mapHas m k then m.map (fun e => if e.1 == k then (k, v) else e)
  else m ++ [(k, v)]

/-- JS `Map.delete`. -/
def mapDelete (m : List (List Char × Nat)) (k : List Char) :
    List (List Char × Nat) :=
  m.filter (fun e => !(e.1 == k))

/-- State of `MessageDeduplicationService`
(`MessageDeduplicationService.ts`): the seen-event map and the insertion
order list. -/
structure MessageDeduplicationService where
  seenEvents : List (List Char × Nat)
  eventOrder : List (List Char)
  deriving DecidableEq, Repr

/-- Fresh dedup service. -/
def MessageDeduplicationService.init : MessageDeduplicationService := ⟨[], []⟩

/-- Embedding of the private `cleanup`: drop the oldest entries until
`CLEANUP_THRESHOLD = 10000 * 0.9 = 9000` remain (`splice(0, toRemove)` on
the order list, `Map.delete` of each removed id).  The JS guard
`toRemove <= 0` coincides with the truncated subtraction being zero. -/
def MessageDeduplicationService.cleanup (s : MessageDeduplicationService) :
    MessageDeduplicationService :=
  let toRemove := s.eventOrder.length - 9000
  if toRemove = 0 then s
  else
    { eventOrder := s.eventOrder.drop toRemove
      seenEvents := (s.eventOrder.take toRemove).foldl mapDelete s.seenEvents }

/-- Embedding of `markSeenId`; `now` is the `Date.now()` value recorded with
the id.  Returns the duplicate flag and the post-call state. -/
def MessageDeduplicationService.markSeenId (s : MessageDeduplicationService)
    (eventId : List Char) (now : Nat) :
    Bool × MessageDeduplicationService :=
  if mapHas s.seenEvents eventId then (true, s)
  else
    let s1 : MessageDeduplicationService :=
      { seenEvents := mapSet s.seenEvents eventId now
        eventOrder := s.eventOrder ++ [eventId] }
    (false, if s1.eventOrder.length > 10000 then s1.cleanup else s1)

/-- Embedding of `processEvent` (negation of `markSeen`, which delegates to
`markSeenId` on the event id). -/
def MessageDeduplicationService.processEvent (s : MessageDeduplicationService)
    (eventId : List Char) (now : Nat) :
    Bool × MessageDeduplicationService :=
  let r := s.markSeenId eventId now
  (!r.1, r.2)

/-- Run a sequence of `markSeenId` / `processEvent` calls (both evolve the
state through `markSeenId`) from the fresh service; each operation carries
the id and the `Date.now()` value of the call. -/
def dedupRun (ops : List (List Char × Nat)) : MessageDeduplicationService :=
  ops.foldl (fun s op => (s.markSeenId op.1 op.2).2) .init

/-- Well-formedness tying the map to the order list: the map keys, in
insertion order, are exactly `eventOrder`, and ids are tracked at most
once. -/
def DedupWF (s : MessageDeduplicationService) : Prop :=
  s.seenEvents.map Prod.fst = s.eventOrder ∧ s.eventOrder.Nodup

/-- A two-character id for each `n < 10000`, used to build a concrete
full-capacity service. -/
def dedupIdOf (n : Nat) : List Char :=
  [Char.ofNat (48 + n / 100), Char.ofNat (48 + n % 100)]

/-- Ten thousand pairwise distinct ids. -/
def dedupIdsM : List (List Char) := (List.range 10000).map dedupIdOf

/-- A dedup service at exactly full capacity. -/
def dedupFullM : MessageDeduplicationService :=
  ⟨dedupIdsM.map (fun id => (id, 0)), dedupIdsM⟩

/-- Error codes of `NostrProtocolError`, plus `LIB_ERROR` standing for an
exception propagated from a platform or library primitive (`hexToBytes`,
`JSON.parse`, a noble cipher throw) that the source does not wrap. -/
inductive NostrProtocolErr where
  | INVALID_PUBLIC_KEY
  | INVALID_CIPHERTEXT
  | INVALID_EVENT
  | ENCRYPTION_FAILED
  | LIB_ERROR
  deriving DecidableEq, Repr

/-- External platform and library primitives used by the Nostr protocol
engine, kept opaque: SHA-256, UTF-8 codecs (`TextEncoder` / `TextDecoder`),
secp256k1 scalar multiplication returning the x coordinate (`ecdh` takes the
private scalar and a 33-byte compressed point), the NIP-44 HKDF key
derivation, XChaCha20-Poly1305, BIP-340 key derivation and signing, `btoa` /
`atob`, and `hexToBytes` from noble-hashes (`none` models its throw). -/
structure CryptoPrims where
  sha256 : List Nat → List Nat
  utf8enc : List Char → List Nat
  utf8dec : List Nat → List Char
  ecdh : List Nat → List Nat → List Nat
  hkdfNip44 : List Nat → List Nat
  xcEnc : List Nat → List Nat → List Nat → List Nat
  xcDec : List Nat → List Nat → List Nat → Option (List Nat)
  schnorrPub : List Nat → List Nat
  schnorrSign : List Nat → List Nat → List Nat → List Nat
  btoaF : List Nat → List Char
  atobF : List Char → Option (List Nat)
  hexToBytes : List Char → Option (List Nat)

/-- Embedding of the private `NostrProtocol.deriveSharedSecret`: a 32-byte
x-only key is lifted with even-Y prefix `0x02`; a 33-byte compressed key is
used as is; anything else throws `INVALID_PUBLIC_KEY`.  The curve arithmetic
is the opaque `ecdh`. -/
def deriveSharedSecret (P : CryptoPrims) (privateKey publicKey : List Nat) :
    Except NostrProtocolErr (List Nat) :=
  if publicKey.length = 32 then .ok (P.ecdh privateKey (2 :: publicKey))
  else if publicKey.length = 33 then .ok (P.ecdh privateKey publicKey)
  else .error .INVALID_PUBLIC_KEY

/-- The URL-safe character replacement of `base64URLEncode`
(`+` → `-`, `/` → `_`). -/
def b64UrlOf (c : Char) : Char :=
  if c = '+' then '-' else if c = '/' then '_' else c

/-- The inverse replacement performed by `base64URLDecode`
(`-` → `+`, `_` → `/`). -/
def b64StdOf (c : Char) : Char :=
  if c = '-' then '+' else if c = '_' then '/' else c

/-- Strip the trailing run of `=` characters (`replace(/=+$/, '')`). -/
def stripTrailingEq (s : List Char) : List Char :=
  (s.reverse.dropWhile (fun c => c = '=')).reverse

/-- Embedding of the private `NostrProtocol.base64URLEncode`. -/
def base64URLEncode (P : CryptoPrims) (data : List Nat) : List Char :=
  stripTrailingEq ((P.btoaF data).map b64UrlOf)

/-- Embedding of the private `NostrProtocol.base64URLDecode`. -/
def base64URLDecode (P : CryptoPrims) (s : List Char) : Option (List Nat) :=
  let pad := (4 - s.length % 4) % 4
  let padded := s ++ List.replicate pad '='
  P.atobF (padded.map b64StdOf)

/-- Embedding of the private `NostrProtocol.encrypt` (NIP-44 v2).  The
24-byte random nonce is an explicit argument. -/
def nip44Encrypt (P : CryptoPrims) (plaintext : List Char)
    (recipientPubkey : List Char) (senderKey : List Nat) (nonce : List Nat) :
    Except NostrProtocolErr (List Char) :=
  match P.hexToBytes recipientPubkey with
  | none => .error .LIB_ERROR
  | some recipientPubkeyData =>
    (deriveSharedSecret P senderKey recipientPubkeyData).map fun sharedSecret =>
      let key := P.hkdfNip44 sharedSecret
      let ciphertext := P.xcEnc key nonce (P.utf8enc plaintext)
      ['v', '2', ':'] ++ base64URLEncode P (nonce ++ ciphertext)

/-- One `tryDecrypt` attempt of the private `NostrProtocol.decrypt`. -/
def tryDecryptE (P : CryptoPrims) (recipientKey pubKeyData nonce
    encryptedData : List Nat) : Except NostrProtocolErr (List Nat) :=
  (deriveSharedSecret P recipientKey pubKeyData).bind fun sharedSecret =>
    match P.xcDec (P.hkdfNip44 sharedSecret) nonce encryptedData with
    | some plaintext => .ok plaintext
    | none => .error .LIB_ERROR

/-- Embedding of the private `NostrProtocol.decrypt` (NIP-44 v2), including
the even-then-odd parity retry for 32-byte x-only sender keys. -/
def nip44Decrypt (P : CryptoPrims) (ciphertext : List Char)
    (senderPubkey : List Char) (recipientKey : List Nat) :
    Except NostrProtocolErr (List Char) :=
  if ciphertext.take 3 ≠ ['v', '2', ':'] then
    .error .INVALID_CIPHERTEXT
  else
    match base64URLDecode P (ciphertext.drop 3) with
    | none => .error .LIB_ERROR
    | some data =>
      if data.length ≤ 24 + 16 then .error .INVALID_CIPHERTEXT
      else
        let nonce := data.take 24
        let encryptedData := data.drop 24
        match P.hexToBytes senderPubkey with
        | none => .error .LIB_ERROR
        | some senderPubkeyData =>
          if senderPubkeyData.length = 32 then
            match tryDecryptE P recipientKey (2 :: senderPubkeyData) nonce
                encryptedData with
            | .ok plaintext => .ok (P.utf8dec plaintext)
            | .error _ =>
              (tryDecryptE P recipientKey (3 :: senderPubkeyData) nonce
                encryptedData).map P.utf8dec
          else
            (tryDecryptE P recipientKey senderPubkeyData nonce
              encryptedData).map P.utf8dec

/-- Nostr event record (`NostrEvent.ts`); strings are `List Char`. -/
structure NostrEventRec where
  id : List Char
  pubkey : List Char
  created_at : Int
  kind : Int
  tags : List (List (List Char))
  content : List Char
  sig : Option (List Char)
  deriving DecidableEq, Repr

/-- Lowercase hexadecimal digit. -/
def hexDigit (d : Nat) : Char := "0123456789abcdef".data.getD d '0'

/-- `bytesToHex` from noble-hashes: two lowercase hex digits per byte. -/
def bytesToHex (bytes : List Nat) : List Char :=
  (bytes.map (fun b => [hexDigit (b / 16 % 16), hexDigit (b % 16)])).flatten

/-- ECMAScript `QuoteJSONString` escape of one character, as performed by
`JSON.stringify` on the event strings (which hold Unicode scalar values):
the two-character escapes for `"`, `\`, backspace, tab, newline, form feed
and carriage return, `\u00XX` with lowercase hex for the remaining control
characters, and the character itself otherwise. -/
def jsonEscapeChar (c : Char) : List Char :=
  if c = '"' then ['\\', '"']
  else if c = '\\' then ['\\', '\\']
  else if c.toNat = 8 then ['\\', 'b']
  else if c.toNat = 9 then ['\\', 't']
  else if c.toNat = 10 then ['\\', 'n']
  else if c.toNat = 12 then ['\\', 'f']
  else if c.toNat = 13 then ['\\', 'r']
  else if c.toNat < 32 then
    ['\\', 'u', '0', '0', hexDigit (c.toNat / 16), hexDigit (c.toNat % 16)]
  else [c]

/-- `JSON.stringify` of a string value. -/
def jsonQuote (s : List Char) : List Char :=
  '"' :: (s.map jsonEscapeChar).flatten ++ ['"']

/-- Decimal rendering of an integral JS number, as `JSON.stringify`
produces it. -/
def intToChars (n : Int) : List Char := (toString n).data

/-- Comma-joined concatenation, as `JSON.stringify` renders array items. -/
def commaJoin : List (List Char) → List Char
  | [] => []
  | [x] => x
  | x :: y :: xs => x ++ ',' :: commaJoin (y :: xs)

/-- `JSON.stringify` of an array of strings. -/
def jsonStringArray (l : List (List Char)) : List Char :=
  '[' :: commaJoin (l.map jsonQuote) ++ [']']

/-- `JSON.stringify` of the tags (array of array of strings). -/
def jsonTagsArray (tags : List (List (List Char))) : List Char :=
  '[' :: commaJoin (tags.map jsonStringArray) ++ [']']

/-- The serialization computed inside `NostrEvent.calculateEventId`:
`JSON.stringify([0, pubkey, created_at, kind, tags, content])`. -/
def stringifyEventArray (ev : NostrEventRec) : List Char :=
  '[' :: '0' :: ',' ::
    (jsonQuote ev.pubkey ++ ',' :: intToChars ev.created_at ++ ',' ::
     intToChars ev.kind ++ ',' :: jsonTagsArray ev.tags ++ ',' ::
     jsonQuote ev.content) ++ [']']

/-- Embedding of `NostrEvent.calculateEventId` (the `id` component):
lowercase hex of SHA-256 over the UTF-8 bytes of the serialized array. -/
def calculateEventId (sha256 : List Nat → List Nat)
    (utf8 : List Char → List Nat) (ev : NostrEventRec) : List Char :=
  bytesToHex (sha256 (utf8 (stringifyEventArray ev)))

/-- Modelled from the spec (§4.5): RFC 8259 minimal escaping — `\"`, `\\`,
`\b`, `\f`, `\n`, `\r`, `\t`, and `\uXXXX` for the remaining control
characters, everything else verbatim. -/
def rfc8259Escape (c : Char) : List Char :=
  if 32 ≤ c.toNat ∧ c ≠ '"' ∧ c ≠ '\\' then [c]
  else if c = '"' then ['\\', '"']
  else if c = '\\' then ['\\', '\\']
  else if c.toNat = 8 then ['\\', 'b']
  else if c.toNat = 12 then ['\\', 'f']
  else if c.toNat = 10 then ['\\', 'n']
  else if c.toNat = 13 then ['\\', 'r']
  else if c.toNat = 9 then ['\\', 't']
  else ['\\', 'u', '0', '0', hexDigit (c.toNat / 16), hexDigit (c.toNat % 16)]

/-- Modelled from the spec: a JSON string per `serialize_canonical`. -/
def canonicalQuote (s : List Char) : List Char :=
  '"' :: (s.map rfc8259Escape).flatten ++ ['"']

/-- Modelled from the spec: `serialize_canonical` — the minimal JSON of the
array `[0, pubkey, created_at, kind, tags, content]` in that positional
order, integers in plain decimal, no insignificant whitespace, strings
escaped per RFC 8259 minimal. -/
def serializeCanonical (ev : NostrEventRec) : List Char :=
  '[' :: '0' :: ',' ::
    (canonicalQuote ev.pubkey ++ ',' :: intToChars ev.created_at ++ ',' ::
     intToChars ev.kind ++ ',' ::
     ('[' :: commaJoin (ev.tags.map
        (fun tag => '[' :: commaJoin (tag.map canonicalQuote) ++ [']'])) ++ [']']) ++
     ',' :: canonicalQuote ev.content) ++ [']']

/-- Truncation toward zero of the time value handed to `new Date(ms)`
(ECMAScript `TimeClip` / `ToIntegerOrInfinity`). -/
def jsNewDateTime (t : ℚ) : Int :=
  if 0 ≤ t then Int.floor t else -Int.floor (-t)

/-- The `created_at` computed by the `NostrEvent` constructor:
`Math.floor(createdAt.getTime() / 1000)` of a date whose time value is
`tMs` milliseconds. -/
def createdAtOfMs (tMs : Int) : Int := Int.floor ((tMs : ℚ) / 1000)

/-- Event as built by `new NostrEvent({...})` (id empty, unsigned). -/
def NostrEventRec.build (pubkey : List Char) (createdAtMs : Int) (kind : Int)
    (tags : List (List (List Char))) (content : List Char) : NostrEventRec :=
  { id := []
    pubkey := pubkey
    created_at := createdAtOfMs createdAtMs
    kind := kind
    tags := tags
    content := content
    sig := none }

/-- Embedding of `NostrProtocol.randomizedTimestamp`: the time value of
`new Date(Date.now() + (Math.random() * 1800 - 900) * 1000)`, with the
`Math.random()` draw `r ∈ [0, 1)` an explicit argument. -/
def randomizedTimestampMs (nowMs : Int) (r : ℚ) : Int :=
  jsNewDateTime ((nowMs : ℚ) + (r * 1800 - 900) * 1000)

/-- Embedding of `NostrEvent.sign`: computes the id and signature, then
rebuilds the event from `new Date(created_at * 1000)`. -/
def NostrEventRec.signE (P : CryptoPrims) (ev : NostrEventRec)
    (privateKey auxRand : List Nat) : NostrEventRec :=
  let hash := P.sha256 (P.utf8enc (stringifyEventArray ev))
  { NostrEventRec.build ev.pubkey (ev.created_at * 1000) ev.kind ev.tags
      ev.content with
    id := bytesToHex hash
    sig := some (bytesToHex (P.schnorrSign hash privateKey auxRand)) }

/-- Embedding of `NostrEvent.toJSON`: `JSON.stringify` of the event object
with keys in declaration order; an `undefined` `sig` is omitted. -/
def eventToJSON (ev : NostrEventRec) : List Char :=
  Char.ofNat 123 ::
    ("\"id\":".data ++ jsonQuote ev.id ++
     ",\"pubkey\":".data ++ jsonQuote ev.pubkey ++
     ",\"created_at\":".data ++ intToChars ev.created_at ++
     ",\"kind\":".data ++ intToChars ev.kind ++
     ",\"tags\":".data ++ jsonTagsArray ev.tags ++
     ",\"content\":".data ++ jsonQuote ev.content ++
     (match ev.sig with
      | none => []
      | some s => ",\"sig\":".data ++ jsonQuote s)) ++ [Char.ofNat 125]

/-- The rumor of `createPrivateMessage` step 1: an unsigned kind-14 event
carrying the sender identity pubkey, the real current time and the
message content. -/
def createRumor (senderPubkeyHex : List Char) (nowMs : Int)
    (content : List Char) : NostrEventRec :=
  NostrEventRec.build senderPubkeyHex nowMs 14 [] content

/-- Embedding of the private `NostrProtocol.createSeal`: NIP-44 encrypt the
rumor JSON to the recipient under the ephemeral seal key, build a kind-13
event with a randomized timestamp, sign with the seal key. -/
def createSeal (P : CryptoPrims) (rumor : NostrEventRec)
    (recipientPubkey : List Char) (senderKey : List Nat) (nowMs : Int)
    (r : ℚ) (nonce auxRand : List Nat) : Except NostrProtocolErr NostrEventRec :=
  (nip44Encrypt P (eventToJSON rumor) recipientPubkey senderKey nonce).map
    fun encrypted =>
      NostrEventRec.signE P
        (NostrEventRec.build (bytesToHex (P.schnorrPub senderKey))
          (randomizedTimestampMs nowMs r) 13 [] encrypted)
        senderKey auxRand

/-- Embedding of the private `NostrProtocol.createGiftWrap`: NIP-44 encrypt
the seal JSON to the recipient under a fresh wrap key, build a kind-1059
event with a randomized timestamp and a `p` tag, sign with the wrap key. -/
def createGiftWrap (P : CryptoPrims) (sealEv : NostrEventRec)
    (recipientPubkey : List Char) (wrapKey : List Nat) (nowMs : Int) (r : ℚ)
    (nonce auxRand : List Nat) : Except NostrProtocolErr NostrEventRec :=
  (nip44Encrypt P (eventToJSON sealEv) recipientPubkey wrapKey nonce).map
    fun encrypted =>
      NostrEventRec.signE P
        (NostrEventRec.build (bytesToHex (P.schnorrPub wrapKey))
          (randomizedTimestampMs nowMs r) 1059 [[['p'], recipientPubkey]]
          encrypted)
        wrapKey auxRand

/-- Embedding of `NostrProtocol.createPrivateMessage`: rumor, seal, wrap.
The clocks of the three construction steps and the two `Math.random()`
draws, ephemeral keys, nonces and signing auxiliaries are explicit. -/
def createPrivateMessage (P : CryptoPrims) (content : List Char)
    (recipientPubkey senderPubkeyHex : List Char) (nowR nowS nowW : Int)
    (rS rW : ℚ) (sealKey wrapKey nonceS nonceW auxS auxW : List Nat) :
    Except NostrProtocolErr NostrEventRec :=
  (createSeal P (createRumor senderPubkeyHex nowR content) recipientPubkey
      sealKey nowS rS nonceS auxS).bind fun sealedEvent =>
    createGiftWrap P sealedEvent recipientPubkey wrapKey nowW rW nonceW auxW

/-- Raw dictionary produced by `JSON.parse` on an event JSON, as consumed by
`NostrEvent.fromDict` (absent `id` / `sig` are `none`). -/
structure NostrEventDict where
  pubkey : List Char
  created_at : Int
  kind : Int
  tags : List (List (List Char))
  content : List Char
  id : Option (List Char)
  sig : Option (List Char)
  deriving DecidableEq, Repr

/-- Embedding of `NostrEvent.fromDict`. -/
def NostrEventRec.fromDict (d : NostrEventDict) : NostrEventRec :=
  { NostrEventRec.build d.pubkey (d.created_at * 1000) d.kind d.tags d.content
    with
    id := d.id.getD []
    sig := d.sig }

/-- Embedding of `NostrProtocol.decryptPrivateMessage` (receive path:
unwrap the gift wrap, open the seal, return content, sender pubkey and
timestamp of the rumor).  `parseDict` is the opaque `JSON.parse`.  No
signature or event-id verification appears anywhere on this path. -/
def decryptPrivateMessage (P : CryptoPrims)
    (parseDict : List Char → Option NostrEventDict)
    (giftWrap : NostrEventRec) (recipientPrivateKey : List Nat) :
    Except NostrProtocolErr (List Char × List Char × Int) :=
  match nip44Decrypt P giftWrap.content giftWrap.pubkey recipientPrivateKey with
  | .error e => .error e
  | .ok decryptedSeal =>
    match parseDict decryptedSeal with
    | none => .error .LIB_ERROR
    | some sealDict =>
      let sealEv := NostrEventRec.fromDict sealDict
      match nip44Decrypt P sealEv.content sealEv.pubkey recipientPrivateKey with
      | .error e => .error e
      | .ok decryptedRumor =>
        match parseDict decryptedRumor with
        | none => .error .LIB_ERROR
        | some rumorDict =>
          let rumor := NostrEventRec.fromDict rumorDict
          .ok (rumor.content, rumor.pubkey, rumor.created_at)

/-- The standard base64 alphabet (used to state the shape of `btoa`
output). -/
def base64Alphabet : List Char :=
  "ABCDEFGHIJKLMNOPQRSTUVWXYZabcdefghijklmnopqrstuvwxyz0123456789+/".data

/-- Byte sum, used by the concrete model primitives below. -/
def sumBytes (l : List Nat) : Nat := l.foldl (· + ·) 0

/-- Character of the standard base64 alphabet. -/
def b64ch (v : Nat) : Char := base64Alphabet.getD v '?'

/-- Model `btoa` for closed evaluations: four alphabet characters per byte
(the first two constant), so the output length is divisible by four, uses
no padding and stays inside the alphabet. -/
def btoaW (bytes : List Nat) : List Char :=
  (bytes.map (fun b => [b64ch 0, b64ch 0, b64ch (b / 64), b64ch (b % 64)])).flatten

/-- Model `atob`, inverse of `btoaW` on its outputs. -/
def atobW : List Char → Option (List Nat)
  | [] => some []
  | c1 :: c2 :: c3 :: c4 :: rest =>
    match base64Alphabet.indexOf? c3, base64Alphabet.indexOf? c4, atobW rest with
    | some v3, some v4, some bs =>
      if c1 = b64ch 0 ∧ c2 = b64ch 0 then some ((v3 * 64 + v4) :: bs) else none
    | _, _, _ => none
  | _ => none

/-- Value of a lowercase hex digit. -/
def hexVal (c : Char) : Option Nat := "0123456789abcdef".data.indexOf? c

/-- Model `hexToBytes` for closed evaluations (lowercase hex only). -/
def hexToBytesW : List Char → Option (List Nat)
  | [] => some []
  | c1 :: c2 :: rest =>
    match hexVal c1, hexVal c2, hexToBytesW rest with
    | some a, some b, some bs => some ((a * 16 + b) :: bs)
    | _, _, _ => none
  | _ => none

/-- Concrete model primitives for closed evaluations of the Nostr engine.
They satisfy the structural properties the theorems hypothesize (AEAD
round-trip with 16-byte expansion, ECDH x-coordinate symmetry on equal key
pairs, UTF-8 round-trip on ASCII, base64 shape) without being real
cryptography. -/
def primsM : CryptoPrims :=
  { sha256 := fun l => List.replicate 32 (sumBytes l % 256)
    utf8enc := fun s => s.map Char.toNat
    utf8dec := fun l => l.map Char.ofNat
    ecdh := fun priv pub => List.replicate 32 ((sumBytes priv * sumBytes pub) % 256)
    hkdfNip44 := fun shared => shared
    xcEnc := fun k n p => p ++ List.replicate 16 ((sumBytes k + sumBytes n) % 256)
    xcDec := fun k n ct =>
      if ct.length ≥ 16 ∧
          ct.drop (ct.length - 16) =
            List.replicate 16 ((sumBytes k + sumBytes n) % 256) then
        some (ct.take (ct.length - 16))
      else none
    schnorrPub := fun priv => List.replicate 32 (sumBytes priv % 256)
    schnorrSign := fun digest priv aux =>
      List.replicate 64 ((sumBytes digest + sumBytes priv + sumBytes aux) % 256)
    btoaF := btoaW
    atobF := atobW
    hexToBytes := hexToBytesW }

/-- A trivial `JSON.parse` stand-in for closed evaluations. -/
def parseDict0 : List Char → Option NostrEventDict := fun _ => none

/-- A concrete gift wrap (for closed evaluations). -/
def gwA : NostrEventRec :=
  { id := ['a']
    pubkey := ['p']
    created_at := 5
    kind := 1059
    tags := []
    content := ['c']
    sig := some ['s'] }

/-- The same gift wrap with different `id` and absent `sig`. -/
def gwB : NostrEventRec := { gwA with id := ['b'], sig := none }

/-- Concrete plaintext for closed NIP-44 evaluations. -/
def ptC : List Char := ['A']

/-- Concrete 64-character hex pubkey (decodes to 32 zero bytes). -/
def hexC : List Char := List.replicate 64 '0'

/-- Concrete x-only public key bytes. -/
def pubC : List Nat := List.replicate 32 0

/-- Concrete private scalar. -/
def privC : List Nat := [1]

/-- Concrete 24-byte nonce. -/
def nonceC : List Nat := List.replicate 24 1

/-- The NIP-44 key the model primitives derive for `privC` / `pubC`. -/
def keyC : List Nat := primsM.hkdfNip44 (primsM.ecdh privC (2 :: pubC))

/-- The model ciphertext for `ptC`. -/
def ctC : List Nat := primsM.xcEnc keyC nonceC (primsM.utf8enc ptC)

/-- Nonce and ciphertext as combined before base64url encoding. -/
def combinedC : List Nat := nonceC ++ ctC

/-- Same, for the empty plaintext (40 bytes: 24-byte nonce plus a bare
16-byte tag). -/
def combinedEmptyC : List Nat := nonceC ++ primsM.xcEnc keyC nonceC []

/-
Bech32 (src/src/crypto/keys/KeyManager.ts).  JS numbers under `<<`, `>>`,
`|`, `&`, `^` are 32-bit operations; every value that reaches `>>`, `&` or
`^` below is provably below 2^31, so only the accumulator update in
`convertBits` (where `acc << fromBits` can exceed 32 bits) needs an
explicit `js32` wrap; all other spots read only low bits, where the wrap
is the identity.  Strings are `List Char` (the code only ever feeds ASCII
to `charCodeAt`/`toLowerCase`, where JS UTF-16 units coincide with code
points).
-/

/-- `const BECH32_ALPHABET = 'qpzry9x8gf2tvdw0s3jn54khce6mua7l'`. -/
def BECH32_ALPHABET : List Char := "qpzry9x8gf2tvdw0s3jn54khce6mua7l".data

/-- The inner `while (bits >= toBits)` loop of `convertBits`: repeatedly
`bits -= toBits; result.push((acc >> bits) & maxv)`.  Returns the pushed
digits (in push order) and the final `bits`.  The `0 < toBits` conjunct
makes termination explicit; the code only calls this with `toBits` 5 or
8. -/
def emitLoop (acc bits toBits maxv : Nat) : List Nat × Nat :=
  if h : 0 < toBits ∧ toBits ≤ bits then
    let out := emitLoop acc (bits - toBits) toBits maxv
    (((acc >>> (bits - toBits)) &&& maxv) :: out.1, out.2)
  else ([], bits)
termination_by bits
decreasing_by omega

/-- The outer `for (const value of data)` loop of `convertBits`, carrying
`acc`, `bits` and the emitted `result`.  `acc = (acc << fromBits) | value`
is a 32-bit store, hence the `js32`. -/
def cbLoop (fromBits toBits maxv : Nat) :
    List Nat → Nat → Nat → List Nat → Nat × Nat × List Nat
  | [], acc, bits, result => (acc, bits, result)
  | v :: rest, acc, bits, result =>
    let acc2 := js32 (acc <<< fromBits) ||| v
    let e := emitLoop acc2 (bits + fromBits) toBits maxv
    cbLoop fromBits toBits maxv rest acc2 e.2 (result ++ e.1)

/-- `convertBits(data, fromBits, toBits, pad)`.  `throw` becomes
`.error ()`; the truthiness test `((acc << (toBits - bits)) & maxv)`
becomes `≠ 0`. -/
def convertBits (data : List Nat) (fromBits toBits : Nat) (pad : Bool) :
    Except Unit (List Nat) :=
  let maxv := (1 <<< toBits) - 1
  let r := cbLoop fromBits toBits maxv data 0 0 []
  if pad then
    if r.2.1 > 0 then .ok (r.2.2 ++ [js32 (r.1 <<< (toBits - r.2.1)) &&& maxv])
    else .ok r.2.2
  else if r.2.1 ≥ fromBits ∨ js32 (r.1 <<< (toBits - r.2.1)) &&& maxv ≠ 0 then
    .error ()
  else .ok r.2.2

/-- `const GEN = [...]` inside `polymod`. -/
def GEN : List Nat := [0x3b6a57b2, 0x26508e6d, 0x1ea119fa, 0x3d4233dd, 0x2a1462b3]

/-- One iteration of the `for (const v of values)` loop of `polymod`:
`top = chk >> 25; chk = ((chk & 0x1ffffff) << 5) ^ v;` then the five
conditional xors with `GEN[i]`.  `(chk & 0x1ffffff) << 5 < 2^30`, so the
32-bit shift is exact and no wrap is needed. -/
def polymodStep (chk v : Nat) : Nat :=
  let top := chk >>> 25
  (List.range 5).foldl
    (fun c i => if (top >>> i) &&& 1 ≠ 0 then c ^^^ GEN.getD i 0 else c)
    (((chk &&& 0x1ffffff) <<< 5) ^^^ v)

/-- `polymod(values)`. -/
def polymod (values : List Nat) : Nat := values.foldl polymodStep 1

/-- `hrpExpand(hrp)`: high bits of each char, a zero, then low 5 bits of
each char. -/
def hrpExpand (hrp : List Char) : List Nat :=
  hrp.map (fun c => c.toNat >>> 5) ++ [0] ++ hrp.map (fun c => c.toNat &&& 31)

/-- `createChecksum(hrp, data)`. -/
def createChecksum (hrp : List Char) (data : List Nat) : List Nat :=
  let m := polymod (hrpExpand hrp ++ data ++ [0, 0, 0, 0, 0, 0]) ^^^ 1
  (List.range 6).map (fun i => (m >>> (5 * (5 - i))) &&& 31)

/-- `verifyChecksum(hrp, data)`. -/
def verifyChecksum (hrp : List Char) (data : List Nat) : Bool :=
  polymod (hrpExpand hrp ++ data) == 1

/-- `bech32Encode(prefix, data)`: 8→5 conversion with padding, checksum,
then `prefix + '1' + combined.map(v => BECH32_ALPHABET[v])`. -/
def bech32Encode (pfx : List Char) (data : List Nat) :
    Except Unit (List Char) :=
  match convertBits data 8 5 true with
  | .error e => .error e
  | .ok values =>
    let combined := values ++ createChecksum pfx values
    .ok (pfx ++ '1' :: combined.map (fun v => BECH32_ALPHABET.getD v '?'))

/-- `String.prototype.lastIndexOf` for a single character: index of the
last occurrence, `-1` if absent. -/
def jsLastIndexOf (l : List Char) (c : Char) : Int :=
  match l with
  | [] => -1
  | x :: xs =>
    let r := jsLastIndexOf xs c
    if r ≥ 0 then r + 1 else if x = c then 0 else -1

/-- `char.toLowerCase()` on the Basic Latin range (the only range the
decoder can accept: other characters miss the alphabet and throw). -/
def jsToLower (c : Char) : Char :=
  if 65 ≤ c.toNat ∧ c.toNat ≤ 90 then Char.ofNat (c.toNat + 32) else c

/-- Position of a character in the alphabet (the `indexOf` of
`bech32Decode`, guarded by membership). -/
def alphaIndex : List Char → Char → Nat
  | [], _ => 0
  | c :: rest, x => if c = x then 0 else alphaIndex rest x + 1

/-- The `for (const char of dataChars)` loop of `bech32Decode`: lowercase,
look up in the alphabet, `throw` (`none`) on a miss. -/
def charsToValues : List Char → Option (List Nat)
  | [] => some []
  | c :: rest =>
    let lc := jsToLower c
    if BECH32_ALPHABET.contains lc then
      (charsToValues rest).map (fun vs => alphaIndex BECH32_ALPHABET lc :: vs)
    else none

/-- `bech32Decode(str)`: split at the last `'1'`, decode the data part,
verify the checksum, drop the 6 checksum digits (`values.slice(0, -6)`)
and convert back to bytes. -/
def bech32Decode (str : List Char) : Except Unit (List Char × List Nat) :=
  let pos := jsLastIndexOf str '1'
  if pos < 1 ∨ pos + 7 > (str.length : Int) then .error ()
  else
    let p := pos.toNat
    match charsToValues (str.drop (p + 1)) with
    | none => .error ()
    | some values =>
      if verifyChecksum (str.take p) values then
        match convertBits (values.take (values.length - 6)) 5 8 false with
        | .ok data => .ok (str.take p, data)
        | .error e => .error e
      else .error ()

/-- Value of a digit stream read most-significant-first in base `2^w`
(proof device for the 8→5→8 round trip). -/
def SV (w : Nat) (l : List Nat) : Nat := l.foldl (fun a v => a * 2 ^ w + v) 0

/-- Xor-combination of 5-bit digits at their positional shifts (proof
device for the checksum digits of `createChecksum`). -/
def XS : List Nat → Nat
  | [] => 0
  | d :: rest => d <<< (5 * rest.length) ^^^ XS rest

/- THEOREMS -/

/-- C1: in extracted-nonce mode the spec requires that `decrypt` accept each
nonce value at most once.  The embedded code violates this: after authentic
records with nonces 0 and 1 are accepted, an exact replay of the nonce-0
record is accepted again (the sliding-window shift moves the seen-bit of
nonce 0 to offset 15 instead of offset 1).  All three calls succeed. -/
theorem C1_replay_reaccepted_bug :
    ((NoiseCipherState.decrypt aeadDecM rxStateM (recordM 0 [65]) []).1,
     (NoiseCipherState.decrypt aeadDecM
        (NoiseCipherState.decrypt aeadDecM rxStateM (recordM 0 [65]) []).2
        (recordM 1 [66]) []).1,
     (NoiseCipherState.decrypt aeadDecM
        (NoiseCipherState.decrypt aeadDecM
          (NoiseCipherState.decrypt aeadDecM rxStateM (recordM 0 [65]) []).2
          (recordM 1 [66]) []).2
        (recordM 0 [65]) []).1) =
    (.ok [65], .ok [66], .ok [65]) := by
  rfl

/-- C3: the claim requires that for IK/NK handshakes *both* parties mix the
responder's static public key into the symmetric-state hash as a pre-message
(the responder mixing its own local static public key).  In the embedded
code only the initiator does: for IK and NK, a responder's post-constructor
hash is exactly `H(name-hash ‖ prologue)` — independent of every static key
— while the initiator's is `H(H(name-hash ‖ prologue) ‖ remote_static)`.
Consequently the two peers' handshake hashes diverge from the very first
pre-message step (SHA-256 being collision resistant), contradicting the
claimed hash agreement. -/
theorem C3_responder_premessage_missing (sha256 : List Nat → List Nat)
    (rsOpt : Option (List Nat)) (rs : List Nat) (prologue : Option (List Nat)) :
    (handshakeInitHash sha256 .responder .NK rsOpt prologue =
      mixHash sha256 (initialSymmetricHash sha256 (protocolFullName .NK))
        (prologue.getD [])) ∧
    (handshakeInitHash sha256 .responder .IK rsOpt prologue =
      mixHash sha256 (initialSymmetricHash sha256 (protocolFullName .IK))
        (prologue.getD [])) ∧
    (handshakeInitHash sha256 .initiator .NK (some rs) prologue =
      mixHash sha256
        (mixHash sha256 (initialSymmetricHash sha256 (protocolFullName .NK))
          (prologue.getD [])) rs) ∧
    (handshakeInitHash sha256 .initiator .IK (some rs) prologue =
      mixHash sha256
        (mixHash sha256 (initialSymmetricHash sha256 (protocolFullName .IK))
          (prologue.getD [])) rs) :=
  ⟨rfl, rfl, rfl, rfl⟩

/-- C4 (counterexample): with the send counter equal to 2³² − 1 the very
first `encrypt` call already fails with `NONCE_EXCEEDED`; the claim says it
succeeds once before failing. -/
theorem C4_counterexample_encrypt_at_max :
    (NoiseCipherState.encrypt aeadEncM (txStateM 4294967295) [65] []).1 =
      .error .NONCE_EXCEEDED := by
  rfl

/-- C4 (amended): on a keyed cipher state, `encrypt` raises `NONCE_EXCEEDED`
exactly when the send counter exceeds 2³² − 2 (equivalently, is at least
2³² − 1); with the counter equal to 2³² − 2, one encrypt call succeeds and
the following encrypt call fails with `NONCE_EXCEEDED`. -/
theorem C4_amended_nonce_bound (aeadEnc : AeadEnc) (s : NoiseCipherState)
    (k pt ad : List Nat) (hk : s.key = some k) :
    ((NoiseCipherState.encrypt aeadEnc s pt ad).1 = .error .NONCE_EXCEEDED ↔
      4294967295 ≤ s.nonce) ∧
    (s.nonce = 4294967294 →
      (∃ c, (NoiseCipherState.encrypt aeadEnc s pt ad).1 = .ok c) ∧
      (NoiseCipherState.encrypt aeadEnc
          (NoiseCipherState.encrypt aeadEnc s pt ad).2 pt ad).1 =
        .error .NONCE_EXCEEDED) := by
  constructor
  · unfold NoiseCipherState.encrypt
    rw [hk]
    by_cases hn : s.nonce > 4294967295 - 1
    · simp [hn]
      omega
    · simp only [hn, if_false]
      by_cases hx : s.useExtractedNonce <;> simp [hx] <;> omega
  · intro hn
    unfold NoiseCipherState.encrypt
    rw [hk]
    have h1 : ¬ (s.nonce > 4294967295 - 1) := by omega
    simp only [hn, h1, if_false]
    by_cases hx : s.useExtractedNonce <;> simp [hx, hk, hn]

/-- Closed witness for `C4_amended_nonce_bound` at a concrete state. -/
theorem C4_amended_nonce_bound_witness :
    (txStateM 4294967294).key = some keyM ∧
    (((NoiseCipherState.encrypt aeadEncM (txStateM 4294967294) [65] []).1 =
        .error .NONCE_EXCEEDED ↔ 4294967295 ≤ (txStateM 4294967294).nonce) ∧
      ((txStateM 4294967294).nonce = 4294967294 →
        (∃ c, (NoiseCipherState.encrypt aeadEncM (txStateM 4294967294) [65] []).1 =
            .ok c) ∧
        (NoiseCipherState.encrypt aeadEncM
            (NoiseCipherState.encrypt aeadEncM (txStateM 4294967294) [65] []).2
            [65] []).1 = .error .NONCE_EXCEEDED)) :=
  ⟨rfl, C4_amended_nonce_bound aeadEncM (txStateM 4294967294) keyM [65] [] rfl⟩

/-- C8: `decrypt` is atomic on failure — whenever it returns an error (in
particular `INVALID_CIPHERTEXT` from a failed AEAD authentication), the
cipher state (replay window, highest received nonce and counter) is returned
unchanged, so a later genuine record with the same nonce is judged against
the same state. -/
theorem C8_decrypt_error_atomic (aeadDec : AeadDec) (s : NoiseCipherState)
    (ct ad : List Nat) (e : NoiseErr)
    (h : (NoiseCipherState.decrypt aeadDec s ct ad).1 = .error e) :
    (NoiseCipherState.decrypt aeadDec s ct ad).2 = s := by
  cases hk : s.key with
  | none => unfold NoiseCipherState.decrypt; rw [hk]
  | some k =>
    unfold NoiseCipherState.decrypt at h ⊢
    rw [hk] at h ⊢
    dsimp only [] at h ⊢
    by_cases h1 : ct.length < 16
    · simp [h1]
    · simp only [h1, if_false] at h ⊢
      by_cases hx : s.useExtractedNonce
      · simp only [hx, if_true] at h ⊢
        by_cases h2 : ct.length < 4 + 16
        · simp [h2]
        · simp only [h2, if_false] at h ⊢
          by_cases h3 : ¬ s.isValidNonce (beToNat (ct.take 4))
          · simp [h3]
          · simp only [h3, if_false] at h ⊢
            cases hd : aeadDec k (nonceData12 (beToNat (ct.take 4))) ad
                (ct.drop 4) with
            | none => rfl
            | some pt => rw [hd] at h; exact absurd h (by simp)
      · simp only [hx, if_false] at h ⊢
        cases hd : aeadDec k (nonceData12 s.nonce) ad ct with
        | none => rfl
        | some pt => rw [hd] at h; exact absurd h (by simp)

/-- Closed witness for `C8_decrypt_error_atomic`: a too-short record on the
receive state errors and the state is unchanged. -/
theorem C8_decrypt_error_atomic_witness :
    (NoiseCipherState.decrypt aeadDecM rxStateM [] []).1 =
      .error .INVALID_CIPHERTEXT ∧
    (NoiseCipherState.decrypt aeadDecM rxStateM [] []).2 = rxStateM :=
  ⟨by rfl, C8_decrypt_error_atomic aeadDecM rxStateM [] [] .INVALID_CIPHERTEXT
    (by rfl)⟩

/-- Reading `mapHas` as key membership. -/
theorem mapHas_eq_false_iff (m : List (List Char × Nat)) (k : List Char) :
    mapHas m k = false ↔ k ∉ m.map Prod.fst := by
  rw [← Bool.not_eq_true]
  simp only [mapHas, List.any_eq_true, beq_iff_eq, List.mem_map]

/-- Folding `Map.delete` over a list of ids filters those keys out. -/
theorem foldl_mapDelete_eq_filter (ids : List (List Char))
    (m : List (List Char × Nat)) :
    ids.foldl mapDelete m = m.filter (fun e => !(ids.contains e.1)) := by
  induction ids generalizing m with
  | nil => simp
  | cons id ids ih =>
    rw [List.foldl_cons, ih, mapDelete, List.filter_filter]
    apply List.filter_congr
    intro e _
    rw [List.contains_cons, Bool.not_or, Bool.and_comm]

/-- Filtering out a prefix of the (pairwise distinct) keys of an association
list drops exactly that prefix. -/
theorem filter_keys_take_drop (m : List (List Char × Nat)) (t : Nat)
    (hnd : (m.map Prod.fst).Nodup) :
    m.filter (fun e => !(((m.map Prod.fst).take t).contains e.1)) = m.drop t := by
  induction m generalizing t with
  | nil => simp
  | cons e m ih =>
    cases t with
    | zero => simp
    | succ t =>
      simp only [List.map_cons, List.take_succ_cons, List.drop_succ_cons]
      rw [List.filter_cons]
      have he : ((e.1 :: (m.map Prod.fst).take t).contains e.1) = true := by
        rw [List.contains_cons]
        simp
      have hne : ∀ x ∈ m, (x.1 == e.1) = false := by
        intro x hx
        have hnotin : e.1 ∉ m.map Prod.fst := (List.nodup_cons.1 hnd).1
        rw [beq_eq_false_iff_ne]
        intro hcontra
        exact hnotin (hcontra ▸ List.mem_map_of_mem Prod.fst hx)
      have hfc : m.filter (fun x => !((e.1 :: (m.map Prod.fst).take t).contains x.1)) =
          m.filter (fun x => !(((m.map Prod.fst).take t).contains x.1)) := by
        apply List.filter_congr
        intro x hx
        rw [List.contains_cons, hne x hx, Bool.false_or]
      simp only [he, Bool.not_true, Bool.false_eq_true, if_false]
      rw [hfc, ih t (List.nodup_cons.1 hnd).2]

/-- Specialization of `cleanup` to a well-formed state at 10001 entries:
the oldest 1001 entries are dropped from both components. -/
theorem cleanup_at_10001 (m : List (List Char × Nat)) (ord : List (List Char))
    (h : ord.length = 10001) (hm : m.map Prod.fst = ord) (hn : ord.Nodup) :
    MessageDeduplicationService.cleanup ⟨m, ord⟩ =
      ⟨m.drop 1001, ord.drop 1001⟩ := by
  have hfil : (ord.take 1001).foldl mapDelete m = m.drop 1001 := by
    rw [foldl_mapDelete_eq_filter, ← hm,
      filter_keys_take_drop m 1001 (by rw [hm]; exact hn)]
  unfold MessageDeduplicationService.cleanup
  dsimp only
  rw [h, hfil]
  norm_num

/-- For a well-formed within-capacity state, `markSeenId` on a new id appends
it and, exactly when the state was full, drops the oldest 1001 entries. -/
theorem markSeenId_new_spec (s : MessageDeduplicationService)
    (id : List Char) (now : Nat) (hwf : DedupWF s)
    (hh : mapHas s.seenEvents id = false)
    (hlen : s.eventOrder.length ≤ 10000) :
    s.markSeenId id now =
      (false,
        if s.eventOrder.length = 10000 then
          ⟨(s.seenEvents ++ [(id, now)]).drop 1001,
           (s.eventOrder ++ [id]).drop 1001⟩
        else ⟨s.seenEvents ++ [(id, now)], s.eventOrder ++ [id]⟩) := by
  obtain ⟨hmap, hnd⟩ := hwf
  have hnotin : id ∉ s.eventOrder := by
    rw [← hmap]
    exact (mapHas_eq_false_iff _ _).1 hh
  have hset : mapSet s.seenEvents id now = s.seenEvents ++ [(id, now)] := by
    simp [mapSet, hh]
  have hmap1 : (s.seenEvents ++ [(id, now)]).map Prod.fst =
      s.eventOrder ++ [id] := by
    simp [hmap]
  have hnd1 : (s.eventOrder ++ [id]).Nodup := by
    rw [List.nodup_append]
    refine ⟨hnd, List.nodup_singleton id, ?_⟩
    intro a ha hb
    rw [List.mem_singleton] at hb
    exact hnotin (hb ▸ ha)
  unfold MessageDeduplicationService.markSeenId
  simp only [hh, Bool.false_eq_true, if_false, hset]
  have hlenapp : (s.eventOrder ++ [id]).length = s.eventOrder.length + 1 := by
    simp
  by_cases hfull : s.eventOrder.length = 10000
  · rw [if_pos hfull]
    have hgt : (s.eventOrder ++ [id]).length > 10000 := by
      rw [hlenapp, hfull]
      omega
    rw [if_pos hgt]
    exact congrArg (Prod.mk false)
      (cleanup_at_10001 _ _ (by rw [hlenapp, hfull]) hmap1 hnd1)
  · rw [if_neg hfull]
    have hle : ¬ ((s.eventOrder ++ [id]).length > 10000) := by
      rw [hlenapp]
      omega
    rw [if_neg hle]

/-- One `markSeenId` call preserves well-formedness and the capacity bound. -/
theorem markSeenId_invariant (s : MessageDeduplicationService)
    (id : List Char) (now : Nat) (hwf : DedupWF s)
    (hlen : s.eventOrder.length ≤ 10000) :
    DedupWF (s.markSeenId id now).2 ∧
      (s.markSeenId id now).2.eventOrder.length ≤ 10000 := by
  by_cases hh : mapHas s.seenEvents id
  · unfold MessageDeduplicationService.markSeenId
    simp only [hh, if_true]
    exact ⟨hwf, hlen⟩
  · rw [Bool.not_eq_true] at hh
    obtain ⟨hmap, hnd⟩ := hwf
    have hnotin : id ∉ s.eventOrder := by
      rw [← hmap]
      exact (mapHas_eq_false_iff _ _).1 hh
    have hmap1 : (s.seenEvents ++ [(id, now)]).map Prod.fst =
        s.eventOrder ++ [id] := by
      simp [hmap]
    have hnd1 : (s.eventOrder ++ [id]).Nodup := by
      rw [List.nodup_append]
      refine ⟨hnd, List.nodup_singleton id, ?_⟩
      intro a ha hb
      rw [List.mem_singleton] at hb
      exact hnotin (hb ▸ ha)
    rw [markSeenId_new_spec s id now ⟨hmap, hnd⟩ hh hlen]
    by_cases hfull : s.eventOrder.length = 10000
    · rw [if_pos hfull]
      refine ⟨⟨?_, hnd1.sublist (List.drop_sublist _ _)⟩, ?_⟩
      · rw [List.map_drop, hmap1]
      · simp only [List.length_drop, List.length_append, List.length_cons,
          List.length_nil]
        omega
    · rw [if_neg hfull]
      refine ⟨⟨hmap1, hnd1⟩, ?_⟩
      simp only [List.length_append, List.length_cons, List.length_nil]
      omega

/-- Every state reached from the fresh service is well formed and within
capacity. -/
theorem dedupRun_invariant (ops : List (List Char × Nat)) :
    DedupWF (dedupRun ops) ∧ (dedupRun ops).eventOrder.length ≤ 10000 := by
  suffices h : ∀ s, DedupWF s → s.eventOrder.length ≤ 10000 →
      DedupWF (ops.foldl (fun s op => (s.markSeenId op.1 op.2).2) s) ∧
      (ops.foldl (fun s op => (s.markSeenId op.1 op.2).2) s).eventOrder.length ≤
        10000 by
    exact h .init ⟨rfl, List.nodup_nil⟩ (by simp [MessageDeduplicationService.init])
  induction ops with
  | nil => intro s h1 h2; exact ⟨h1, h2⟩
  | cons op ops ih =>
    intro s h1 h2
    rw [List.foldl_cons]
    have step := markSeenId_invariant s op.1 op.2 h1 h2
    exact ih _ step.1 step.2

/-- C10: for every sequence of `markSeenId` / `processEvent` calls starting
from the fresh service, the tracked-id map never holds more than 10000
entries after a call returns; and whenever an insertion of a new id drives
the order list over the 10000 capacity, the oldest-inserted ids are dropped
so that exactly 9000 (90% of capacity) remain. -/
theorem C10_dedup_capacity :
    (∀ ops : List (List Char × Nat),
      (dedupRun ops).seenEvents.length ≤ 10000) ∧
    (∀ (s : MessageDeduplicationService) (id : List Char) (now : Nat),
      DedupWF s → s.eventOrder.length = 10000 →
      mapHas s.seenEvents id = false →
      (s.markSeenId id now).2.seenEvents.length = 9000 ∧
      (s.markSeenId id now).2.eventOrder = (s.eventOrder ++ [id]).drop 1001) := by
  constructor
  · intro ops
    obtain ⟨⟨hmap, _⟩, hlen⟩ := dedupRun_invariant ops
    calc (dedupRun ops).seenEvents.length
        = ((dedupRun ops).seenEvents.map Prod.fst).length := by simp
      _ ≤ 10000 := by rw [hmap]; exact hlen
  · intro s id now hwf hlen hh
    rw [markSeenId_new_spec s id now hwf hh (le_of_eq hlen), if_pos hlen]
    refine ⟨?_, rfl⟩
    have hslen : s.seenEvents.length = 10000 := by
      have := congrArg List.length hwf.1
      simp only [List.length_map] at this
      omega
    simp only [List.length_drop, List.length_append, List.length_cons,
      List.length_nil, hslen]

/-- Valid code points below the surrogate range round-trip through
`Char.ofNat`. -/
theorem char_toNat_ofNat_lt {n : Nat} (h : n < 55296) :
    (Char.ofNat n).toNat = n := by
  have hv : n.isValidChar := Or.inl h
  rw [Char.ofNat, dif_pos hv]
  rfl

/-- Mapping the key projection over freshly built `(id, time)` pairs returns
the ids. -/
theorem mapfst_pairs (l : List (List Char)) :
    (l.map (fun id => (id, (0 : Nat)))).map Prod.fst = l := by
  induction l with
  | nil => rfl
  | cons a t ih => simp [ih]

/-- Field reading of a service literal (kept symbolic so that goals close
syntactically). -/
theorem mk_seenEvents (m : List (List Char × Nat)) (ord : List (List Char)) :
    (MessageDeduplicationService.mk m ord).seenEvents = m := rfl

/-- Field reading of a service literal. -/
theorem mk_eventOrder (m : List (List Char × Nat)) (ord : List (List Char)) :
    (MessageDeduplicationService.mk m ord).eventOrder = ord := rfl

/-- The full-capacity service is well formed. -/
theorem dedupFullM_wf : DedupWF dedupFullM := by
  constructor
  · rw [dedupFullM, mk_seenEvents, mk_eventOrder]
    exact mapfst_pairs dedupIdsM
  · rw [dedupFullM, mk_eventOrder, dedupIdsM]
    apply List.Nodup.map_on ?_ (List.nodup_range 10000)
    intro x hx y hy hxy
    rw [List.mem_range] at hx hy
    have h1 := congrArg (fun l => (l.headD 'a').toNat) hxy
    have h2 := congrArg (fun l => ((l.drop 1).headD 'a').toNat) hxy
    simp only [dedupIdOf, List.headD, List.drop] at h1 h2
    rw [char_toNat_ofNat_lt (by omega), char_toNat_ofNat_lt (by omega)] at h1
    rw [char_toNat_ofNat_lt (by omega), char_toNat_ofNat_lt (by omega)] at h2
    omega

/-- The full-capacity service has exactly 10000 tracked ids. -/
theorem dedupFullM_len : dedupFullM.eventOrder.length = 10000 := by
  rw [dedupFullM, mk_eventOrder, dedupIdsM, List.length_map, List.length_range]

/-- A one-character id is not among the two-character tracked ids. -/
theorem dedupFullM_not_has : mapHas dedupFullM.seenEvents ['x'] = false := by
  rw [mapHas_eq_false_iff]
  intro hmem
  have hfst : dedupFullM.seenEvents.map Prod.fst = dedupIdsM := by
    rw [dedupFullM, mk_seenEvents]
    exact mapfst_pairs dedupIdsM
  rw [hfst, dedupIdsM] at hmem
  obtain ⟨n, _, hn⟩ := List.mem_map.1 hmem
  have := congrArg List.length hn
  simp [dedupIdOf] at this

/-- Closed witness for `C10_dedup_capacity` at the concrete full service. -/
theorem C10_dedup_capacity_witness :
    DedupWF dedupFullM ∧ dedupFullM.eventOrder.length = 10000 ∧
    mapHas dedupFullM.seenEvents ['x'] = false ∧
    ((dedupFullM.markSeenId ['x'] 0).2.seenEvents.length = 9000 ∧
     (dedupFullM.markSeenId ['x'] 0).2.eventOrder =
       (dedupFullM.eventOrder ++ [['x']]).drop 1001) :=
  ⟨dedupFullM_wf, dedupFullM_len, dedupFullM_not_has,
    C10_dedup_capacity.2 dedupFullM ['x'] 0 dedupFullM_wf dedupFullM_len
      dedupFullM_not_has⟩

/-- C7: the result of `decryptPrivateMessage` is independent of the gift
wrap's `sig` and `id` fields — two inputs agreeing on `pubkey`,
`created_at`, `kind`, `tags` and `content` but differing arbitrarily in
`sig` or `id` (absent or invalid signatures included) decrypt identically;
the receive path performs no signature or event-id verification (it reads
only `content` and `pubkey` of the wrap and of the parsed seal). -/
theorem C7_decrypt_ignores_sig_and_id (P : CryptoPrims)
    (parseDict : List Char → Option NostrEventDict)
    (gw1 gw2 : NostrEventRec) (recipientPrivateKey : List Nat)
    (hpk : gw1.pubkey = gw2.pubkey) (hca : gw1.created_at = gw2.created_at)
    (hk : gw1.kind = gw2.kind) (ht : gw1.tags = gw2.tags)
    (hc : gw1.content = gw2.content) :
    decryptPrivateMessage P parseDict gw1 recipientPrivateKey =
      decryptPrivateMessage P parseDict gw2 recipientPrivateKey := by
  unfold decryptPrivateMessage
  rw [hpk, hc]

/-- Closed witness for `C7_decrypt_ignores_sig_and_id`: two concrete wraps
differing in `id` and `sig` decrypt identically. -/
theorem C7_decrypt_ignores_sig_and_id_witness :
    (gwA.pubkey = gwB.pubkey ∧ gwA.created_at = gwB.created_at ∧
     gwA.kind = gwB.kind ∧ gwA.tags = gwB.tags ∧
     gwA.content = gwB.content) ∧
    decryptPrivateMessage primsM parseDict0 gwA [1] =
      decryptPrivateMessage primsM parseDict0 gwB [1] :=
  ⟨⟨rfl, rfl, rfl, rfl, rfl⟩,
    C7_decrypt_ignores_sig_and_id primsM parseDict0 gwA gwB [1]
      rfl rfl rfl rfl rfl⟩

/-- JSON string escaping as `JSON.stringify` performs it coincides with the
RFC 8259 minimal escaping of the specification, character by character. -/
theorem jsonEscapeChar_eq_rfc8259 (c : Char) :
    jsonEscapeChar c = rfc8259Escape c := by
  by_cases h1 : c = '"'
  · subst h1; rfl
  by_cases h2 : c = '\\'
  · subst h2; rfl
  by_cases h3 : c.toNat < 32
  · unfold jsonEscapeChar rfc8259Escape
    rw [if_neg h1, if_neg h2,
      if_neg (by intro h; omega : ¬ (32 ≤ c.toNat ∧ c ≠ '"' ∧ c ≠ '\\')),
      if_neg h1, if_neg h2]
    by_cases t8 : c.toNat = 8
    · simp [t8]
    by_cases t9 : c.toNat = 9
    · simp [t8, t9]
    by_cases t10 : c.toNat = 10
    · simp [t8, t9, t10]
    by_cases t12 : c.toNat = 12
    · simp [t8, t9, t10, t12]
    by_cases t13 : c.toNat = 13
    · simp [t8, t9, t10, t12, t13]
    · simp [t8, t9, t10, t12, t13, h3]
  · unfold jsonEscapeChar rfc8259Escape
    have h32 : 32 ≤ c.toNat := by omega
    rw [if_neg h1, if_neg h2,
      if_neg (by omega : ¬ c.toNat = 8), if_neg (by omega : ¬ c.toNat = 9),
      if_neg (by omega : ¬ c.toNat = 10), if_neg (by omega : ¬ c.toNat = 12),
      if_neg (by omega : ¬ c.toNat = 13), if_neg h3,
      if_pos ⟨h32, h1, h2⟩]

/-- The two serializers coincide on every event. -/
theorem stringifyEventArray_eq_canonical (ev : NostrEventRec) :
    stringifyEventArray ev = serializeCanonical ev := by
  have hesc : jsonEscapeChar = rfc8259Escape := funext jsonEscapeChar_eq_rfc8259
  unfold stringifyEventArray serializeCanonical jsonTagsArray jsonStringArray
    jsonQuote canonicalQuote
  rw [hesc]

/-- C5: the event id computed by `calculateEventId` is the lowercase hex of
SHA-256 over the UTF-8 bytes of the minimal JSON serialization of
`[0, pubkey, created_at, kind, tags, content]` in that positional order with
no insignificant whitespace and standard JSON string escaping
(`serializeCanonical`, written from the specification). -/
theorem C5_event_id_canonical (sha256 : List Nat → List Nat)
    (utf8 : List Char → List Nat) (ev : NostrEventRec) :
    calculateEventId sha256 utf8 ev =
      bytesToHex (sha256 (utf8 (serializeCanonical ev))) := by
  unfold calculateEventId
  rw [stringifyEventArray_eq_canonical]

/-- Rebuilding a date from `created_at * 1000` milliseconds preserves the
second count. -/
theorem createdAtOfMs_mul_cancel (c : Int) : createdAtOfMs (c * 1000) = c := by
  unfold createdAtOfMs
  push_cast
  rw [mul_div_cancel_right₀ _ (by norm_num : (1000 : ℚ) ≠ 0)]
  exact Int.floor_intCast c

/-- Signing preserves `created_at`. -/
theorem signE_created_at (P : CryptoPrims) (ev : NostrEventRec)
    (k a : List Nat) : (ev.signE P k a).created_at = ev.created_at := by
  unfold NostrEventRec.signE NostrEventRec.build
  exact createdAtOfMs_mul_cancel ev.created_at

/-- Bounds on the randomized time value: within 900000 ms of the clock. -/
theorem randomizedTimestampMs_bounds (nowMs : Int) (r : ℚ)
    (h0 : 0 ≤ r) (h1 : r < 1) (hn : 900000 ≤ nowMs) :
    nowMs - 900000 ≤ randomizedTimestampMs nowMs r ∧
    randomizedTimestampMs nowMs r ≤ nowMs + 899999 := by
  unfold randomizedTimestampMs jsNewDateTime
  have hnq : (900000 : ℚ) ≤ (nowMs : ℚ) := by exact_mod_cast hn
  have hql : (nowMs : ℚ) - 900000 ≤ (nowMs : ℚ) + (r * 1800 - 900) * 1000 := by
    nlinarith
  have hqu : (nowMs : ℚ) + (r * 1800 - 900) * 1000 < (nowMs : ℚ) + 900000 := by
    nlinarith
  have hq0 : 0 ≤ (nowMs : ℚ) + (r * 1800 - 900) * 1000 := by linarith
  rw [if_pos hq0]
  constructor
  · rw [Int.le_floor]
    push_cast
    linarith
  · have hlt : Int.floor ((nowMs : ℚ) + (r * 1800 - 900) * 1000) <
        nowMs + 900000 := by
      rw [Int.floor_lt]
      push_cast
      linarith
    omega

/-- Monotonicity of the second count in the millisecond time value. -/
theorem createdAtOfMs_mono {a b : Int} (h : a ≤ b) :
    createdAtOfMs a ≤ createdAtOfMs b := by
  unfold createdAtOfMs
  apply Int.floor_mono
  have hq : (a : ℚ) ≤ (b : ℚ) := by exact_mod_cast h
  gcongr

/-- Second-count bounds for a millisecond value within 900000 ms of the
clock. -/
theorem createdAtOfMs_within (nowMs t : Int) (hl : nowMs - 900000 ≤ t)
    (hu : t ≤ nowMs + 899999) :
    createdAtOfMs nowMs - 900 ≤ createdAtOfMs t ∧
    createdAtOfMs t ≤ createdAtOfMs nowMs + 900 := by
  constructor
  · have h1 : createdAtOfMs (nowMs - 900000) ≤ createdAtOfMs t :=
      createdAtOfMs_mono hl
    have h2 : createdAtOfMs (nowMs - 900000) = createdAtOfMs nowMs - 900 := by
      unfold createdAtOfMs
      have hcast : ((nowMs - 900000 : Int) : ℚ) / 1000 =
          (nowMs : ℚ) / 1000 - ((900 : Int) : ℚ) := by
        push_cast
        ring
      rw [hcast, Int.floor_sub_int]
    omega
  · have h1 : createdAtOfMs t ≤ Int.floor ((nowMs : ℚ) / 1000 + ((900 : Int) : ℚ)) := by
      unfold createdAtOfMs
      apply Int.floor_mono
      have hq : (t : ℚ) ≤ (nowMs : ℚ) + 899999 := by exact_mod_cast hu
      have hstep : (t : ℚ) / 1000 ≤ ((nowMs : ℚ) + 899999) / 1000 := by gcongr
      have hsplit : ((nowMs : ℚ) + 899999) / 1000 =
          (nowMs : ℚ) / 1000 + 899999 / 1000 := by ring
      rw [hsplit] at hstep
      have : (899999 : ℚ) / 1000 ≤ ((900 : Int) : ℚ) := by norm_num
      linarith
    rw [Int.floor_add_int] at h1
    unfold createdAtOfMs at h1 ⊢
    omega

/-- Bounds for the `created_at` derived from a randomized timestamp. -/
theorem randomizedCreatedAt_bounds (nowMs : Int) (r : ℚ)
    (h0 : 0 ≤ r) (h1 : r < 1) (hn : 900000 ≤ nowMs) :
    createdAtOfMs nowMs - 900 ≤ createdAtOfMs (randomizedTimestampMs nowMs r) ∧
    createdAtOfMs (randomizedTimestampMs nowMs r) ≤ createdAtOfMs nowMs + 900 := by
  obtain ⟨hl, hu⟩ := randomizedTimestampMs_bounds nowMs r h0 h1 hn
  exact createdAtOfMs_within nowMs _ hl hu

/-- Inversion of a successful `Except.map`. -/
theorem except_map_ok {α β γ : Type} {f : α → β} {e : Except γ α} {y : β}
    (h : e.map f = .ok y) : ∃ x, e = .ok x ∧ y = f x := by
  cases e with
  | error a => simp [Except.map] at h
  | ok x =>
    refine ⟨x, rfl, ?_⟩
    simpa [Except.map] using h.symm

/-- Inversion of a successful `Except.bind`. -/
theorem except_bind_ok {α β γ : Type} {f : α → Except γ β} {e : Except γ α}
    {y : β} (h : e.bind f = .ok y) : ∃ x, e = .ok x ∧ f x = .ok y := by
  cases e with
  | error a => simp [Except.bind] at h
  | ok x => exact ⟨x, rfl, h⟩

/-- C6: for every `createPrivateMessage` call, the inner rumor carries the
real current timestamp (`Math.floor(now / 1000)`, no randomization), while
the seal produced by `createSeal` and the gift wrap produced by the
`createPrivateMessage` composition carry timestamps drawn from the
randomized range `[now − 900 s, now + 900 s]` of their respective clock
readings; the randomized timestamp is never applied to the rumor. -/
theorem C6_timestamp_randomization (P : CryptoPrims)
    (content recipientPubkey senderPubHex : List Char) (nowR nowS nowW : Int)
    (rS rW : ℚ) (sealKey wrapKey nonceS nonceW auxS auxW : List Nat)
    (hrS0 : 0 ≤ rS) (hrS1 : rS < 1) (hrW0 : 0 ≤ rW) (hrW1 : rW < 1)
    (hnS : 900000 ≤ nowS) (hnW : 900000 ≤ nowW) :
    (createRumor senderPubHex nowR content).created_at = createdAtOfMs nowR ∧
    (∀ sealEv, createSeal P (createRumor senderPubHex nowR content)
        recipientPubkey sealKey nowS rS nonceS auxS = .ok sealEv →
      createdAtOfMs nowS - 900 ≤ sealEv.created_at ∧
      sealEv.created_at ≤ createdAtOfMs nowS + 900) ∧
    (∀ w, createPrivateMessage P content recipientPubkey senderPubHex nowR
        nowS nowW rS rW sealKey wrapKey nonceS nonceW auxS auxW = .ok w →
      createdAtOfMs nowW - 900 ≤ w.created_at ∧
      w.created_at ≤ createdAtOfMs nowW + 900) := by
  refine ⟨rfl, ?_, ?_⟩
  · intro sealEv h
    unfold createSeal at h
    obtain ⟨enc, _, hs⟩ := except_map_ok h
    have hca : sealEv.created_at =
        createdAtOfMs (randomizedTimestampMs nowS rS) := by
      rw [hs, signE_created_at]
      rfl
    rw [hca]
    exact randomizedCreatedAt_bounds nowS rS hrS0 hrS1 hnS
  · intro w h
    unfold createPrivateMessage at h
    obtain ⟨sealEv, _, hw⟩ := except_bind_ok h
    unfold createGiftWrap at hw
    obtain ⟨enc, _, hg⟩ := except_map_ok hw
    have hca : w.created_at =
        createdAtOfMs (randomizedTimestampMs nowW rW) := by
      rw [hg, signE_created_at]
      rfl
    rw [hca]
    exact randomizedCreatedAt_bounds nowW rW hrW0 hrW1 hnW

/-- Closed witness for `C6_timestamp_randomization` at concrete inputs. -/
theorem C6_timestamp_randomization_witness :
    ((0 : ℚ) ≤ 1/2 ∧ (1 : ℚ)/2 < 1 ∧ (900000 : Int) ≤ 1700000000000) ∧
    ((createRumor ['s'] 1700000000000 ['m']).created_at =
        createdAtOfMs 1700000000000 ∧
      (∀ sealEv, createSeal primsM (createRumor ['s'] 1700000000000 ['m'])
          ['r'] [1] 1700000000000 (1/2) [2] [3] = .ok sealEv →
        createdAtOfMs 1700000000000 - 900 ≤ sealEv.created_at ∧
        sealEv.created_at ≤ createdAtOfMs 1700000000000 + 900) ∧
      (∀ w, createPrivateMessage primsM ['m'] ['r'] ['s'] 1700000000000
          1700000000000 1700000000000 (1/2) (1/2) [1] [4] [2] [5] [3] [6] =
            .ok w →
        createdAtOfMs 1700000000000 - 900 ≤ w.created_at ∧
        w.created_at ≤ createdAtOfMs 1700000000000 + 900)) :=
  ⟨⟨by norm_num, by norm_num, by norm_num⟩,
    C6_timestamp_randomization primsM ['m'] ['r'] ['s'] 1700000000000
      1700000000000 1700000000000 (1/2) (1/2) [1] [4] [2] [5] [3] [6]
      (by norm_num) (by norm_num) (by norm_num) (by norm_num)
      (by norm_num) (by norm_num)⟩

/-- Dropping a leading run of elements satisfying the predicate. -/
theorem dropWhile_replicate_append {α : Type} (p : α → Bool) (a : α)
    (hp : p a = true) (k : Nat) (l : List α) :
    List.dropWhile p (List.replicate k a ++ l) = List.dropWhile p l := by
  induction k with
  | zero => simp
  | succ k ih =>
    rw [List.replicate_succ, List.cons_append, List.dropWhile_cons, hp]
    simpa using ih

/-- `dropWhile` is the identity when the first element already fails the
predicate (in particular when no element satisfies it). -/
theorem dropWhile_eq_self_of {α : Type} (p : α → Bool) (l : List α)
    (h : ∀ c ∈ l, p c = false) : List.dropWhile p l = l := by
  cases l with
  | nil => rfl
  | cons x xs =>
    rw [List.dropWhile_cons, h x (List.mem_cons_self x xs)]
    simp

/-- The URL-safe replacement leaves `=` alone. -/
theorem b64UrlOf_eq : b64UrlOf '=' = '=' := rfl

/-- Round trip of the source's base64url layer: for a `btoa` output of the
standard shape (alphabet characters followed by fewer than four `=` pads,
length divisible by four), `base64URLDecode` inverts `base64URLEncode`. -/
theorem base64url_roundtrip_of (P : CryptoPrims) (bs : List Nat)
    (hatob : P.atobF (P.btoaF bs) = some bs)
    (hpad : ∃ body k, P.btoaF bs = body ++ List.replicate k '=' ∧ k < 4 ∧
      '=' ∉ body ∧ (body.length + k) % 4 = 0)
    (hchars : ∀ c ∈ P.btoaF bs, c ∈ base64Alphabet ∨ c = '=') :
    base64URLDecode P (base64URLEncode P bs) = some bs := by
  obtain ⟨body, k, hsplit, hk4, hnoeq, hmod⟩ := hpad
  have hbody_alpha : ∀ c ∈ body, c ∈ base64Alphabet := by
    intro c hc
    have hcmem : c ∈ P.btoaF bs := by
      rw [hsplit]
      exact List.mem_append_left _ hc
    rcases hchars c hcmem with h | h
    · exact h
    · exact absurd (h ▸ hc) hnoeq
  have henc : base64URLEncode P bs = body.map b64UrlOf := by
    unfold base64URLEncode stripTrailingEq
    rw [hsplit, List.map_append, List.map_replicate, b64UrlOf_eq,
      List.reverse_append, List.reverse_replicate,
      dropWhile_replicate_append _ _ (by simp) k _,
      dropWhile_eq_self_of _ _ ?_, List.reverse_reverse]
    intro c hc
    rw [List.mem_reverse, List.mem_map] at hc
    obtain ⟨d, hd, hdc⟩ := hc
    have hda := hbody_alpha d hd
    have hne : b64UrlOf d ≠ '=' := by
      unfold b64UrlOf
      by_cases h1 : d = '+'
      · simp [h1]
      by_cases h2 : d = '/'
      · simp [h1, h2]
      · simp only [h1, h2, if_false]
        intro hcontra
        exact hnoeq (hcontra ▸ hd)
    subst hdc
    simp [hne]
  have hundo : ∀ c ∈ body, b64StdOf (b64UrlOf c) = c := by
    intro c hc
    have hca := hbody_alpha c hc
    unfold b64UrlOf b64StdOf
    by_cases h1 : c = '+'
    · simp [h1]
    by_cases h2 : c = '/'
    · simp [h1, h2]
    have h3 : c ≠ '-' := by
      intro hcontra
      rw [hcontra] at hca
      revert hca
      decide
    have h4 : c ≠ '_' := by
      intro hcontra
      rw [hcontra] at hca
      revert hca
      decide
    simp [h1, h2, h3, h4]
  unfold base64URLDecode
  rw [henc]
  have hlen : (body.map b64UrlOf).length = body.length := List.length_map _ _
  have hpadcount : (4 - (body.map b64UrlOf).length % 4) % 4 = k := by
    rw [hlen]
    omega
  rw [hpadcount]
  show P.atobF ((body.map b64UrlOf ++ List.replicate k '=').map b64StdOf) =
    some bs
  rw [List.map_append, List.map_map, List.map_replicate]
  have hstd : b64StdOf '=' = '=' := rfl
  rw [hstd]
  have hbodymap : body.map (b64StdOf ∘ b64UrlOf) = body := by
    have : ∀ c ∈ body, (b64StdOf ∘ b64UrlOf) c = id c := fun c hc => hundo c hc
    rw [List.map_congr_left this, List.map_id]
  rw [hbodymap, ← hsplit]
  exact hatob

/-- C2 (amended): the NIP-44 v2 round trip holds for every plaintext whose
UTF-8 encoding is nonempty — `decrypt(encrypt(pt, R_pub, S_priv), S_pub,
R_priv) = pt` — and `decrypt` raises `INVALID_CIPHERTEXT` whenever the
decoded `ct_plus_tag` portion is 16 bytes or shorter (in particular whenever
it is shorter than 16 bytes).  The external primitives are hypothesized to
have their cryptographic shape: ECDH x-coordinate symmetry for the key
pair, AEAD inversion with 16-byte expansion at the used key and nonce,
UTF-8 inversion on the plaintext, and the standard `btoa` output shape at
the encrypted payload.  The empty plaintext is excluded: its 40-byte
payload is rejected by the `data.length <= 24 + 16` guard (see the
counterexample). -/
theorem C2_amended_nip44_roundtrip (P : CryptoPrims) (pt hexR hexS : List Char)
    (privS privR pubR pubS nonce key ct combined : List Nat)
    (hhexR : P.hexToBytes hexR = some pubR) (hlenR : pubR.length = 32)
    (hhexS : P.hexToBytes hexS = some pubS) (hlenS : pubS.length = 32)
    (hkey : key = P.hkdfNip44 (P.ecdh privS (2 :: pubR)))
    (hsym : P.ecdh privR (2 :: pubS) = P.ecdh privS (2 :: pubR))
    (hct : ct = P.xcEnc key nonce (P.utf8enc pt))
    (hcomb : combined = nonce ++ ct)
    (hdec : P.xcDec key nonce ct = some (P.utf8enc pt))
    (hctlen : ct.length = (P.utf8enc pt).length + 16)
    (hne : P.utf8enc pt ≠ [])
    (hutf : P.utf8dec (P.utf8enc pt) = pt)
    (hnonce : nonce.length = 24)
    (hatob : P.atobF (P.btoaF combined) = some combined)
    (hpad : ∃ body k, P.btoaF combined = body ++ List.replicate k '=' ∧
      k < 4 ∧ '=' ∉ body ∧ (body.length + k) % 4 = 0)
    (hchars : ∀ c ∈ P.btoaF combined, c ∈ base64Alphabet ∨ c = '=') :
    nip44Encrypt P pt hexR privS nonce =
      .ok (['v', '2', ':'] ++ base64URLEncode P combined) ∧
    nip44Decrypt P (['v', '2', ':'] ++ base64URLEncode P combined) hexS privR =
      .ok pt ∧
    (∀ g data sk rk, base64URLDecode P g = some data → data.length ≤ 40 →
      nip44Decrypt P (['v', '2', ':'] ++ g) sk rk =
        .error .INVALID_CIPHERTEXT) := by
  have htake3 : ∀ g : List Char, (['v', '2', ':'] ++ g).take 3 = ['v', '2', ':'] := by
    intro g
    rfl
  have hdrop3 : ∀ g : List Char, (['v', '2', ':'] ++ g).drop 3 = g := by
    intro g
    rfl
  have hvne : ¬ (['v', '2', ':'] ≠ ['v', '2', ':']) := by simp
  refine ⟨?_, ?_, ?_⟩
  · unfold nip44Encrypt
    rw [hhexR]
    dsimp only
    unfold deriveSharedSecret
    rw [if_pos hlenR]
    dsimp only [Except.map]
    rw [hcomb, hct, hkey]
  · have htd : tryDecryptE P privR (2 :: pubS) nonce ct =
        .ok (P.utf8enc pt) := by
      unfold tryDecryptE deriveSharedSecret
      rw [if_neg (by simp [hlenS] : ¬ ((2 :: pubS).length = 32)),
        if_pos (by simp [hlenS] : (2 :: pubS).length = 33)]
      dsimp only [Except.bind]
      rw [hsym, ← hkey, hdec]
    unfold nip44Decrypt
    rw [hdrop3, htake3, if_neg hvne,
      base64url_roundtrip_of P combined hatob hpad hchars]
    dsimp only
    have hclen : combined.length = (P.utf8enc pt).length + 40 := by
      rw [hcomb, List.length_append, hnonce, hctlen]
      omega
    have hgt : ¬ (combined.length ≤ 24 + 16) := by
      rw [hclen]
      have : (P.utf8enc pt).length ≠ 0 := fun h =>
        hne (List.eq_nil_of_length_eq_zero h)
      omega
    rw [if_neg hgt, hhexS]
    dsimp only
    rw [if_pos hlenS]
    have htake24 : combined.take 24 = nonce := by
      rw [hcomb, ← hnonce, List.take_left]
    have hdrop24 : combined.drop 24 = ct := by
      rw [hcomb, ← hnonce, List.drop_left]
    rw [htake24, hdrop24, htd]
    dsimp only
    rw [hutf]
  · intro g data sk rk hg hlen40
    unfold nip44Decrypt
    rw [hdrop3, htake3, if_neg hvne, hg]
    dsimp only
    rw [if_pos (by omega : data.length ≤ 24 + 16)]

set_option maxRecDepth 20000 in
/-- C2 (counterexample to the claim as stated): with model primitives of
the correct cryptographic shape, encrypting the empty string succeeds and
produces a 40-byte payload (24-byte nonce plus bare 16-byte tag), which
`decrypt` rejects with `INVALID_CIPHERTEXT` — so
`decrypt(encrypt("", R_pub, S_priv), S_pub, R_priv)` does not return the
empty plaintext. -/
theorem C2_counterexample_empty_plaintext :
    nip44Encrypt primsM [] hexC privC nonceC =
      .ok (['v', '2', ':'] ++ base64URLEncode primsM combinedEmptyC) ∧
    nip44Decrypt primsM
      (['v', '2', ':'] ++ base64URLEncode primsM combinedEmptyC) hexC privC =
      .error .INVALID_CIPHERTEXT := by
  constructor
  · rfl
  · rfl

set_option maxRecDepth 20000 in
/-- Closed witness for `C2_amended_nip44_roundtrip` at the model
primitives. -/
theorem C2_amended_nip44_roundtrip_witness :
    (primsM.hexToBytes hexC = some pubC ∧ pubC.length = 32 ∧
      keyC = primsM.hkdfNip44 (primsM.ecdh privC (2 :: pubC)) ∧
      primsM.ecdh privC (2 :: pubC) = primsM.ecdh privC (2 :: pubC) ∧
      ctC = primsM.xcEnc keyC nonceC (primsM.utf8enc ptC) ∧
      combinedC = nonceC ++ ctC ∧
      primsM.xcDec keyC nonceC ctC = some (primsM.utf8enc ptC) ∧
      ctC.length = (primsM.utf8enc ptC).length + 16 ∧
      primsM.utf8enc ptC ≠ [] ∧
      primsM.utf8dec (primsM.utf8enc ptC) = ptC ∧
      nonceC.length = 24 ∧
      primsM.atobF (primsM.btoaF combinedC) = some combinedC ∧
      (∀ c ∈ primsM.btoaF combinedC, c ∈ base64Alphabet ∨ c = '=')) ∧
    (nip44Encrypt primsM ptC hexC privC nonceC =
        .ok (['v', '2', ':'] ++ base64URLEncode primsM combinedC) ∧
      nip44Decrypt primsM (['v', '2', ':'] ++ base64URLEncode primsM combinedC)
          hexC privC = .ok ptC ∧
      (∀ g data sk rk, base64URLDecode primsM g = some data →
        data.length ≤ 40 →
        nip44Decrypt primsM (['v', '2', ':'] ++ g) sk rk =
          .error .INVALID_CIPHERTEXT)) :=
  ⟨⟨by decide, by decide, by decide, by decide, by decide, by decide,
    by decide, by decide, by decide, by decide, by decide, by decide,
    by decide⟩,
    C2_amended_nip44_roundtrip primsM ptC hexC hexC privC privC pubC pubC
      nonceC keyC ctC combinedC (by decide) (by decide) (by decide)
      (by decide) (by decide) (by decide) (by decide) (by decide) (by decide)
      (by decide) (by decide) (by decide) (by decide) (by decide)
      ⟨primsM.btoaF combinedC, 0, by decide⟩
      (by decide)⟩

theorem xorShiftRight (x y n : Nat) : (x ^^^ y) >>> n = x >>> n ^^^ y >>> n := by
  apply Nat.eq_of_testBit_eq
  intro i
  simp [Nat.testBit_shiftRight, Nat.testBit_xor]

theorem xorShiftLeft (x y n : Nat) : (x ^^^ y) <<< n = x <<< n ^^^ y <<< n := by
  apply Nat.eq_of_testBit_eq
  intro i
  simp [Nat.testBit_shiftLeft, Nat.testBit_xor, Bool.and_xor_distrib_left]

theorem testBit_mul_pow_add (a v f i : Nat) (hv : v < 2 ^ f) :
    (a * 2 ^ f + v).testBit i = if i < f then v.testBit i else a.testBit (i - f) := by
  split
  case isTrue h =>
    rw [Nat.testBit_to_div_mod, Nat.testBit_to_div_mod]
    have e1 : a * 2 ^ f = a * 2 ^ (f - i) * 2 ^ i := by
      rw [mul_assoc, ← pow_add, Nat.sub_add_cancel (le_of_lt h)]
    rw [e1, Nat.add_comm, Nat.add_mul_div_right _ _ (Nat.pos_pow_of_pos i (by norm_num))]
    have e2 : a * 2 ^ (f - i) = a * 2 ^ (f - i - 1) * 2 := by
      rw [mul_assoc, ← pow_succ, Nat.sub_add_cancel (by omega : 1 ≤ f - i)]
    have e3 : (v / 2 ^ i + a * 2 ^ (f - i - 1) * 2) % 2 = v / 2 ^ i % 2 := by omega
    rw [e2, e3]
  case isFalse h =>
    rw [Nat.testBit_to_div_mod, Nat.testBit_to_div_mod]
    have e1 : (2 : Nat) ^ i = 2 ^ f * 2 ^ (i - f) := by
      rw [← pow_add]
      congr 1
      omega
    rw [e1, ← Nat.div_div_eq_div_mul, Nat.add_comm,
      Nat.add_mul_div_right _ _ (Nat.pos_pow_of_pos f (by norm_num)),
      Nat.div_eq_of_lt hv, Nat.zero_add]

theorem shiftLeft_or_of_lt (a v f : Nat) (hv : v < 2 ^ f) :
    a <<< f ||| v = a * 2 ^ f + v := by
  apply Nat.eq_of_testBit_eq
  intro i
  rw [Nat.testBit_or, Nat.testBit_shiftLeft, testBit_mul_pow_add _ _ _ _ hv]
  by_cases h : i < f
  · simp [h, Nat.not_le.mpr h]
  · have hvi : v.testBit i = false :=
      Nat.testBit_lt_two_pow (lt_of_lt_of_le hv (Nat.pow_le_pow_right (by norm_num) (by omega)))
    simp [h, Nat.not_lt.mp h, hvi]

theorem shiftLeft_xor_of_lt (a v f : Nat) (hv : v < 2 ^ f) :
    a <<< f ^^^ v = a * 2 ^ f + v := by
  apply Nat.eq_of_testBit_eq
  intro i
  rw [Nat.testBit_xor, Nat.testBit_shiftLeft, testBit_mul_pow_add _ _ _ _ hv]
  by_cases h : i < f
  · simp [h, Nat.not_le.mpr h]
  · have hvi : v.testBit i = false :=
      Nat.testBit_lt_two_pow (lt_of_lt_of_le hv (Nat.pow_le_pow_right (by norm_num) (by omega)))
    simp [h, Nat.not_lt.mp h, hvi]

theorem js32_shl8 (acc : Nat) : js32 (acc <<< 8) = 256 * (acc % 2 ^ 24) := by
  rw [js32, Nat.shiftLeft_eq]
  have h : (4294967296 : Nat) = 256 * 2 ^ 24 := by norm_num
  rw [h, mul_comm acc (2 ^ 8), show (2:Nat)^8 = 256 by norm_num, Nat.mul_mod_mul_left]

theorem js32_shl5 (acc : Nat) : js32 (acc <<< 5) = 32 * (acc % 2 ^ 27) := by
  rw [js32, Nat.shiftLeft_eq]
  have h : (4294967296 : Nat) = 32 * 2 ^ 27 := by norm_num
  rw [h, mul_comm acc (2 ^ 5), show (2:Nat)^5 = 32 by norm_num, Nat.mul_mod_mul_left]

theorem acc2_eq8 (acc v : Nat) (hv : v < 256) :
    js32 (acc <<< 8) ||| v = 256 * (acc % 2 ^ 24) + v := by
  have h := shiftLeft_or_of_lt (acc % 2 ^ 24) v 8 (by omega)
  rw [Nat.shiftLeft_eq] at h
  rw [js32_shl8,
    show (256 : Nat) * (acc % 2 ^ 24) = acc % 2 ^ 24 * 2 ^ 8 by rw [mul_comm]; norm_num]
  exact h

theorem acc2_eq5 (acc v : Nat) (hv : v < 32) :
    js32 (acc <<< 5) ||| v = 32 * (acc % 2 ^ 27) + v := by
  have h := shiftLeft_or_of_lt (acc % 2 ^ 27) v 5 (by omega)
  rw [Nat.shiftLeft_eq] at h
  rw [js32_shl5,
    show (32 : Nat) * (acc % 2 ^ 27) = acc % 2 ^ 27 * 2 ^ 5 by rw [mul_comm]; norm_num]
  exact h

theorem emitLoop_none (acc bits toBits maxv : Nat) (h : bits < toBits) :
    emitLoop acc bits toBits maxv = ([], bits) := by
  rw [emitLoop, dif_neg (by omega : ¬(0 < toBits ∧ toBits ≤ bits))]

theorem emitLoop_once (acc bits toBits maxv : Nat) (ht : 0 < toBits)
    (h1 : toBits ≤ bits) (h2 : bits < 2 * toBits) :
    emitLoop acc bits toBits maxv =
      ([(acc >>> (bits - toBits)) &&& maxv], bits - toBits) := by
  rw [emitLoop, dif_pos ⟨ht, h1⟩,
    emitLoop_none _ _ _ _ (show bits - toBits < toBits by omega)]

theorem emitLoop_twice (acc bits toBits maxv : Nat) (ht : 0 < toBits)
    (h1 : 2 * toBits ≤ bits) (h2 : bits < 3 * toBits) :
    emitLoop acc bits toBits maxv =
      ([(acc >>> (bits - toBits)) &&& maxv,
        (acc >>> (bits - toBits - toBits)) &&& maxv], bits - toBits - toBits) := by
  rw [emitLoop, dif_pos ⟨ht, by omega⟩,
    emitLoop_once _ _ _ _ ht (by omega) (by omega)]

theorem SV_nil (w : Nat) : SV w [] = 0 := rfl

theorem SV_foldlGen (w : Nat) (l : List Nat) (s : Nat) :
    l.foldl (fun a v => a * 2 ^ w + v) s = s * 2 ^ (w * l.length) + SV w l := by
  induction l generalizing s with
  | nil => simp [SV]
  | cons v t ih =>
    have hc : SV w (v :: t) = v * 2 ^ (w * t.length) + SV w t := by
      rw [SV, List.foldl_cons]
      simp only [Nat.zero_mul, Nat.zero_add]
      exact ih v
    rw [List.foldl_cons, ih, hc, List.length_cons, Nat.mul_succ, pow_add]
    ring

theorem SV_cons (w v : Nat) (l : List Nat) :
    SV w (v :: l) = v * 2 ^ (w * l.length) + SV w l := by
  rw [SV, List.foldl_cons]
  simp only [Nat.zero_mul, Nat.zero_add]
  exact SV_foldlGen w l v

theorem SV_append (w : Nat) (l1 l2 : List Nat) :
    SV w (l1 ++ l2) = SV w l1 * 2 ^ (w * l2.length) + SV w l2 := by
  rw [SV, List.foldl_append, ← SV, SV_foldlGen]

theorem SV_lt (w : Nat) (l : List Nat) (h : ∀ x ∈ l, x < 2 ^ w) :
    SV w l < 2 ^ (w * l.length) := by
  induction l with
  | nil => simp [SV]
  | cons v t ih =>
    rw [SV_cons]
    have h1 : v < 2 ^ w := h v (List.mem_cons_self v t)
    have h2 : SV w t < 2 ^ (w * t.length) := ih (fun x hx => h x (List.mem_cons_of_mem v hx))
    calc v * 2 ^ (w * t.length) + SV w t
        < v * 2 ^ (w * t.length) + 2 ^ (w * t.length) := by omega
      _ = (v + 1) * 2 ^ (w * t.length) := by ring
      _ ≤ 2 ^ w * 2 ^ (w * t.length) := by
          exact Nat.mul_le_mul_right _ (by omega)
      _ = 2 ^ (w * (t.length + 1)) := by
          rw [← pow_add]
          congr 1
          ring

theorem SV_inj (w : Nat) : ∀ l1 l2 : List Nat, l1.length = l2.length →
    (∀ x ∈ l1, x < 2 ^ w) → (∀ x ∈ l2, x < 2 ^ w) → SV w l1 = SV w l2 → l1 = l2 := by
  intro l1
  induction l1 with
  | nil =>
    intro l2 hlen _ _ _
    cases l2 with
    | nil => rfl
    | cons b u => simp at hlen
  | cons a t ih =>
    intro l2 hlen h1 h2 hsv
    match l2 with
    | [] => exact absurd hlen (by simp)
    | b :: u =>
      have hlen2 : t.length = u.length := by simpa using hlen
      rw [SV_cons, SV_cons, hlen2] at hsv
      have hta : SV w t < 2 ^ (w * u.length) := by
        rw [← hlen2]
        exact SV_lt w t (fun x hx => h1 x (List.mem_cons_of_mem a hx))
      have htb : SV w u < 2 ^ (w * u.length) := SV_lt w u (fun x hx => h2 x (List.mem_cons_of_mem b hx))
      have hK : 0 < 2 ^ (w * u.length) := Nat.pos_pow_of_pos _ (by norm_num)
      have hab : a = b := by
        rcases Nat.lt_trichotomy a b with h | h | h
        · have : a + 1 ≤ b := h
          have : (a + 1) * 2 ^ (w * u.length) ≤ b * 2 ^ (w * u.length) :=
            Nat.mul_le_mul_right _ this
          nlinarith
        · exact h
        · have : b + 1 ≤ a := h
          have : (b + 1) * 2 ^ (w * u.length) ≤ a * 2 ^ (w * u.length) :=
            Nat.mul_le_mul_right _ this
          nlinarith
      subst hab
      have htu : SV w t = SV w u := by omega
      rw [ih u hlen2 (fun x hx => h1 x (List.mem_cons_of_mem a hx))
        (fun x hx => h2 x (List.mem_cons_of_mem a hx)) htu]

theorem and31_lt (x : Nat) : x &&& 31 < 32 :=
  lt_of_le_of_lt Nat.and_le_right (by norm_num)

theorem and31_mod (x : Nat) : x &&& 31 = x % 32 := by
  have h := Nat.and_pow_two_sub_one_eq_mod x 5
  norm_num at h
  exact h

theorem and255_lt (x : Nat) : x &&& 255 < 256 :=
  lt_of_le_of_lt Nat.and_le_right (by norm_num)

theorem and255_mod (x : Nat) : x &&& 255 = x % 256 := by
  have h := Nat.and_pow_two_sub_one_eq_mod x 8
  norm_num at h
  exact h

theorem mod85 (A v bits : Nat) (hb : bits < 5) (hv : v < 256) :
    (256 * A + v) % 2 ^ (bits + 8) = A % 2 ^ bits * 256 + v := by
  interval_cases bits <;> omega

theorem mod58 (A v bits : Nat) (hb : bits < 8) (hv : v < 32) :
    (32 * A + v) % 2 ^ (bits + 5) = A % 2 ^ bits * 32 + v := by
  interval_cases bits <;> omega

theorem emit85 (x bits : Nat) (hb : bits < 5) :
    ∃ e b3, emitLoop x (bits + 8) 5 31 = (e, b3) ∧ b3 < 5 ∧ (∀ y ∈ e, y < 32) ∧
      5 * e.length + b3 = bits + 8 ∧
      SV 5 e * 2 ^ b3 + x % 2 ^ b3 = x % 2 ^ (bits + 8) := by
  interval_cases bits
  · refine ⟨_, _, emitLoop_once x 8 5 31 (by norm_num) (by norm_num) (by norm_num),
      by norm_num, ?_, ?_, ?_⟩
    · intro y hy
      simp at hy
      subst hy
      exact and31_lt _
    · simp only [List.length_cons, List.length_nil]
      try omega
    · simp only [SV_cons, SV_nil, List.length_nil, Nat.mul_zero, pow_zero, Nat.mul_one,
        Nat.add_zero]
      rw [Nat.shiftRight_eq_div_pow, and31_mod]
      omega
  · refine ⟨_, _, emitLoop_once x 9 5 31 (by norm_num) (by norm_num) (by norm_num),
      by norm_num, ?_, ?_, ?_⟩
    · intro y hy
      simp at hy
      subst hy
      exact and31_lt _
    · simp only [List.length_cons, List.length_nil]
      try omega
    · simp only [SV_cons, SV_nil, List.length_nil, Nat.mul_zero, pow_zero, Nat.mul_one,
        Nat.add_zero]
      rw [Nat.shiftRight_eq_div_pow, and31_mod]
      omega
  · refine ⟨_, _, emitLoop_twice x 10 5 31 (by norm_num) (by norm_num) (by norm_num),
      by norm_num, ?_, ?_, ?_⟩
    · intro y hy
      simp at hy
      rcases hy with rfl | rfl <;> exact and31_lt _
    · simp only [List.length_cons, List.length_nil]
      try omega
    · simp only [SV_cons, SV_nil, List.length_cons, List.length_nil, Nat.mul_zero, pow_zero,
        Nat.mul_one, Nat.add_zero]
      rw [Nat.shiftRight_eq_div_pow, Nat.shiftRight_eq_div_pow, and31_mod, and31_mod]
      norm_num
      omega
  · refine ⟨_, _, emitLoop_twice x 11 5 31 (by norm_num) (by norm_num) (by norm_num),
      by norm_num, ?_, ?_, ?_⟩
    · intro y hy
      simp at hy
      rcases hy with rfl | rfl <;> exact and31_lt _
    · simp only [List.length_cons, List.length_nil]
      try omega
    · simp only [SV_cons, SV_nil, List.length_cons, List.length_nil, Nat.mul_zero, pow_zero,
        Nat.mul_one, Nat.add_zero]
      rw [Nat.shiftRight_eq_div_pow, Nat.shiftRight_eq_div_pow, and31_mod, and31_mod]
      norm_num
      omega
  · refine ⟨_, _, emitLoop_twice x 12 5 31 (by norm_num) (by norm_num) (by norm_num),
      by norm_num, ?_, ?_, ?_⟩
    · intro y hy
      simp at hy
      rcases hy with rfl | rfl <;> exact and31_lt _
    · simp only [List.length_cons, List.length_nil]
      try omega
    · simp only [SV_cons, SV_nil, List.length_cons, List.length_nil, Nat.mul_zero, pow_zero,
        Nat.mul_one, Nat.add_zero]
      rw [Nat.shiftRight_eq_div_pow, Nat.shiftRight_eq_div_pow, and31_mod, and31_mod]
      norm_num
      omega

theorem emit58 (x bits : Nat) (hb : bits < 8) :
    ∃ e b3, emitLoop x (bits + 5) 8 255 = (e, b3) ∧ b3 < 8 ∧ (∀ y ∈ e, y < 256) ∧
      8 * e.length + b3 = bits + 5 ∧
      SV 8 e * 2 ^ b3 + x % 2 ^ b3 = x % 2 ^ (bits + 5) := by
  interval_cases bits
  · exact ⟨[], 5, emitLoop_none x 5 8 255 (by norm_num), by norm_num, by simp, by simp,
      by simp [SV]⟩
  · exact ⟨[], 6, emitLoop_none x 6 8 255 (by norm_num), by norm_num, by simp, by simp,
      by simp [SV]⟩
  · exact ⟨[], 7, emitLoop_none x 7 8 255 (by norm_num), by norm_num, by simp, by simp,
      by simp [SV]⟩
  · refine ⟨_, _, emitLoop_once x 8 8 255 (by norm_num) (by norm_num) (by norm_num),
      by norm_num, ?_, ?_, ?_⟩
    · intro y hy
      simp at hy
      subst hy
      exact and255_lt _
    · simp only [List.length_cons, List.length_nil]
      try omega
    · simp only [SV_cons, SV_nil, List.length_nil, Nat.mul_zero, pow_zero, Nat.mul_one,
        Nat.add_zero]
      rw [Nat.shiftRight_eq_div_pow, and255_mod]
      omega
  · refine ⟨_, _, emitLoop_once x 9 8 255 (by norm_num) (by norm_num) (by norm_num),
      by norm_num, ?_, ?_, ?_⟩
    · intro y hy
      simp at hy
      subst hy
      exact and255_lt _
    · simp only [List.length_cons, List.length_nil]
      try omega
    · simp only [SV_cons, SV_nil, List.length_nil, Nat.mul_zero, pow_zero, Nat.mul_one,
        Nat.add_zero]
      rw [Nat.shiftRight_eq_div_pow, and255_mod]
      omega
  · refine ⟨_, _, emitLoop_once x 10 8 255 (by norm_num) (by norm_num) (by norm_num),
      by norm_num, ?_, ?_, ?_⟩
    · intro y hy
      simp at hy
      subst hy
      exact and255_lt _
    · simp only [List.length_cons, List.length_nil]
      try omega
    · simp only [SV_cons, SV_nil, List.length_nil, Nat.mul_zero, pow_zero, Nat.mul_one,
        Nat.add_zero]
      rw [Nat.shiftRight_eq_div_pow, and255_mod]
      omega
  · refine ⟨_, _, emitLoop_once x 11 8 255 (by norm_num) (by norm_num) (by norm_num),
      by norm_num, ?_, ?_, ?_⟩
    · intro y hy
      simp at hy
      subst hy
      exact and255_lt _
    · simp only [List.length_cons, List.length_nil]
      try omega
    · simp only [SV_cons, SV_nil, List.length_nil, Nat.mul_zero, pow_zero, Nat.mul_one,
        Nat.add_zero]
      rw [Nat.shiftRight_eq_div_pow, and255_mod]
      omega
  · refine ⟨_, _, emitLoop_once x 12 8 255 (by norm_num) (by norm_num) (by norm_num),
      by norm_num, ?_, ?_, ?_⟩
    · intro y hy
      simp at hy
      subst hy
      exact and255_lt _
    · simp only [List.length_cons, List.length_nil]
      try omega
    · simp only [SV_cons, SV_nil, List.length_nil, Nat.mul_zero, pow_zero, Nat.mul_one,
        Nat.add_zero]
      rw [Nat.shiftRight_eq_div_pow, and255_mod]
      omega

theorem cbLoop85_spec (data : List Nat) : ∀ (acc bits : Nat) (out : List Nat),
    (∀ v ∈ data, v < 256) → bits < 5 →
    ∃ accF bitsF out2,
      cbLoop 8 5 31 data acc bits out = (accF, bitsF, out ++ out2) ∧
      bitsF < 5 ∧ (∀ v ∈ out2, v < 32) ∧
      5 * out2.length + bitsF = bits + 8 * data.length ∧
      SV 5 out2 * 2 ^ bitsF + accF % 2 ^ bitsF =
        acc % 2 ^ bits * 2 ^ (8 * data.length) + SV 8 data := by
  induction data with
  | nil =>
    intro acc bits out _ hb
    exact ⟨acc, bits, [], by simp [cbLoop], hb, by simp, by simp, by simp [SV]⟩
  | cons v rest ih =>
    intro acc bits out hd hb
    have hv : v < 256 := hd v (List.mem_cons_self v rest)
    have hrest : ∀ x ∈ rest, x < 256 := fun x hx => hd x (List.mem_cons_of_mem v hx)
    obtain ⟨e, b3, hemit, hb3, he32, hlen1, hsv1⟩ := emit85 (js32 (acc <<< 8) ||| v) bits hb
    obtain ⟨accF, bitsF, outR, hrec, hbF, hoR, hlen2, hsv2⟩ :=
      ih (js32 (acc <<< 8) ||| v) b3 (out ++ e) hrest hb3
    refine ⟨accF, bitsF, e ++ outR, ?_, hbF, ?_, ?_, ?_⟩
    · simp only [cbLoop]
      rw [hemit]
      dsimp only
      rw [hrec, List.append_assoc]
    · intro x hx
      rcases List.mem_append.mp hx with h | h
      · exact he32 x h
      · exact hoR x h
    · rw [List.length_append]
      simp only [List.length_cons]
      omega
    · have hX : js32 (acc <<< 8) ||| v = 256 * (acc % 2 ^ 24) + v := acc2_eq8 acc v hv
      have hmm : acc % 2 ^ 24 % 2 ^ bits = acc % 2 ^ bits :=
        Nat.mod_mod_of_dvd _ (pow_dvd_pow 2 (by omega))
      have hmod : (js32 (acc <<< 8) ||| v) % 2 ^ (bits + 8) = acc % 2 ^ bits * 256 + v := by
        rw [hX, mod85 _ _ _ hb hv, hmm]
      have hexp : 5 * outR.length + bitsF = b3 + 8 * rest.length := by omega
      rw [SV_append, SV_cons, List.length_cons]
      have hp1 : (2 : Nat) ^ (5 * outR.length) * 2 ^ bitsF = 2 ^ b3 * 2 ^ (8 * rest.length) := by
        rw [← pow_add, ← pow_add]
        congr 1
        try omega
      have hp2 : (2 : Nat) ^ (8 * (rest.length + 1)) = 2 ^ (8 * rest.length) * 256 := by
        rw [show 8 * (rest.length + 1) = 8 * rest.length + 8 by ring, pow_add]
        norm_num
      have key : (SV 5 e * 2 ^ (5 * outR.length) + SV 5 outR) * 2 ^ bitsF + accF % 2 ^ bitsF
          = SV 5 e * (2 ^ (5 * outR.length) * 2 ^ bitsF)
            + (SV 5 outR * 2 ^ bitsF + accF % 2 ^ bitsF) := by ring
      rw [key, hp1, hsv2]
      have key2 : SV 5 e * (2 ^ b3 * 2 ^ (8 * rest.length))
            + ((js32 (acc <<< 8) ||| v) % 2 ^ b3 * 2 ^ (8 * rest.length) + SV 8 rest)
          = (SV 5 e * 2 ^ b3 + (js32 (acc <<< 8) ||| v) % 2 ^ b3) * 2 ^ (8 * rest.length)
            + SV 8 rest := by ring
      rw [key2, hsv1, hmod, hp2]
      ring

theorem cbLoop58_spec (data : List Nat) : ∀ (acc bits : Nat) (out : List Nat),
    (∀ v ∈ data, v < 32) → bits < 8 →
    ∃ accF bitsF out2,
      cbLoop 5 8 255 data acc bits out = (accF, bitsF, out ++ out2) ∧
      bitsF < 8 ∧ (∀ v ∈ out2, v < 256) ∧
      8 * out2.length + bitsF = bits + 5 * data.length ∧
      SV 8 out2 * 2 ^ bitsF + accF % 2 ^ bitsF =
        acc % 2 ^ bits * 2 ^ (5 * data.length) + SV 5 data := by
  induction data with
  | nil =>
    intro acc bits out _ hb
    exact ⟨acc, bits, [], by simp [cbLoop], hb, by simp, by simp, by simp [SV]⟩
  | cons v rest ih =>
    intro acc bits out hd hb
    have hv : v < 32 := hd v (List.mem_cons_self v rest)
    have hrest : ∀ x ∈ rest, x < 32 := fun x hx => hd x (List.mem_cons_of_mem v hx)
    obtain ⟨e, b3, hemit, hb3, he32, hlen1, hsv1⟩ := emit58 (js32 (acc <<< 5) ||| v) bits hb
    obtain ⟨accF, bitsF, outR, hrec, hbF, hoR, hlen2, hsv2⟩ :=
      ih (js32 (acc <<< 5) ||| v) b3 (out ++ e) hrest hb3
    refine ⟨accF, bitsF, e ++ outR, ?_, hbF, ?_, ?_, ?_⟩
    · simp only [cbLoop]
      rw [hemit]
      dsimp only
      rw [hrec, List.append_assoc]
    · intro x hx
      rcases List.mem_append.mp hx with h | h
      · exact he32 x h
      · exact hoR x h
    · rw [List.length_append]
      simp only [List.length_cons]
      omega
    · have hX : js32 (acc <<< 5) ||| v = 32 * (acc % 2 ^ 27) + v := acc2_eq5 acc v hv
      have hmm : acc % 2 ^ 27 % 2 ^ bits = acc % 2 ^ bits :=
        Nat.mod_mod_of_dvd _ (pow_dvd_pow 2 (by omega))
      have hmod : (js32 (acc <<< 5) ||| v) % 2 ^ (bits + 5) = acc % 2 ^ bits * 32 + v := by
        rw [hX, mod58 _ _ _ hb hv, hmm]
      have hexp : 8 * outR.length + bitsF = b3 + 5 * rest.length := by omega
      rw [SV_append, SV_cons, List.length_cons]
      have hp1 : (2 : Nat) ^ (8 * outR.length) * 2 ^ bitsF = 2 ^ b3 * 2 ^ (5 * rest.length) := by
        rw [← pow_add, ← pow_add]
        congr 1
        try omega
      have hp2 : (2 : Nat) ^ (5 * (rest.length + 1)) = 2 ^ (5 * rest.length) * 32 := by
        rw [show 5 * (rest.length + 1) = 5 * rest.length + 5 by ring, pow_add]
        norm_num
      have key : (SV 8 e * 2 ^ (8 * outR.length) + SV 8 outR) * 2 ^ bitsF + accF % 2 ^ bitsF
          = SV 8 e * (2 ^ (8 * outR.length) * 2 ^ bitsF)
            + (SV 8 outR * 2 ^ bitsF + accF % 2 ^ bitsF) := by ring
      rw [key, hp1, hsv2]
      have key2 : SV 8 e * (2 ^ b3 * 2 ^ (5 * rest.length))
            + ((js32 (acc <<< 5) ||| v) % 2 ^ b3 * 2 ^ (5 * rest.length) + SV 5 rest)
          = (SV 8 e * 2 ^ b3 + (js32 (acc <<< 5) ||| v) % 2 ^ b3) * 2 ^ (5 * rest.length)
            + SV 5 rest := by ring
      rw [key2, hsv1, hmod, hp2]
      ring

theorem convertBits85 (data : List Nat) (hd : ∀ b ∈ data, b < 256) :
    ∃ values p, convertBits data 8 5 true = .ok values ∧ (∀ v ∈ values, v < 32) ∧
      p < 5 ∧ 5 * values.length = 8 * data.length + p ∧ SV 5 values = SV 8 data * 2 ^ p := by
  obtain ⟨accF, bitsF, out, hloop, hbF, hout, hlen, hsv⟩ :=
    cbLoop85_spec data 0 0 [] hd (by norm_num)
  rw [Nat.zero_mod, Nat.zero_mul, Nat.zero_add] at hsv
  rw [List.nil_append] at hloop
  by_cases hb0 : bitsF = 0
  · refine ⟨out, 0, ?_, hout, by norm_num, by omega, ?_⟩
    · show convertBits data 8 5 true = .ok out
      dsimp only [convertBits]
      rw [show ((1:Nat) <<< 5) - 1 = 31 by decide, hloop]
      dsimp only
      rw [if_pos rfl, if_neg (by omega)]
    · subst hb0
      simp only [pow_zero, Nat.mul_one, Nat.mod_one, Nat.add_zero] at hsv
      rw [pow_zero, Nat.mul_one, hsv]
  · have hb1 : 1 ≤ bitsF := by omega
    have hdpad : js32 (accF <<< (5 - bitsF)) &&& 31 = accF % 2 ^ bitsF * 2 ^ (5 - bitsF) := by
      rw [js32, Nat.shiftLeft_eq, and31_mod]
      interval_cases bitsF <;> omega
    refine ⟨out ++ [js32 (accF <<< (5 - bitsF)) &&& 31], 5 - bitsF, ?_, ?_, by omega,
      ?_, ?_⟩
    · show convertBits data 8 5 true = .ok (out ++ [js32 (accF <<< (5 - bitsF)) &&& 31])
      dsimp only [convertBits]
      rw [show ((1:Nat) <<< 5) - 1 = 31 by decide, hloop]
      dsimp only
      rw [if_pos rfl, if_pos (by omega)]
    · intro x hx
      rcases List.mem_append.mp hx with h | h
      · exact hout x h
      · simp at h
        subst h
        exact and31_lt _
    · rw [List.length_append]
      simp only [List.length_cons, List.length_nil]
      omega
    · rw [SV_append, hdpad]
      simp only [SV_cons, SV_nil, List.length_cons, List.length_nil, Nat.mul_zero, pow_zero,
        Nat.mul_one, Nat.add_zero]
      rw [← hsv]
      have hp : (2:Nat) ^ bitsF * 2 ^ (5 - bitsF) = 2 ^ 5 := by
        rw [← pow_add, show bitsF + (5 - bitsF) = 5 by omega]
      rw [add_mul, mul_assoc, hp]
      try norm_num

theorem convertBits58 (data values : List Nat) (hd : ∀ b ∈ data, b < 256)
    (hv : ∀ v ∈ values, v < 32) (p : Nat) (hp : p < 5)
    (hlen : 5 * values.length = 8 * data.length + p)
    (hsv : SV 5 values = SV 8 data * 2 ^ p) :
    convertBits values 5 8 false = .ok data := by
  obtain ⟨accF, bitsF, out, hloop, hbF, hout, hlen2, hsv2⟩ :=
    cbLoop58_spec values 0 0 [] hv (by norm_num)
  rw [Nat.zero_mod, Nat.zero_mul, Nat.zero_add] at hsv2
  rw [List.nil_append] at hloop
  have hbp1 : bitsF = p := by omega
  have hlenod : out.length = data.length := by omega
  subst hbp1
  rw [hsv] at hsv2
  have hKpos : 0 < (2:Nat) ^ bitsF := Nat.pos_pow_of_pos _ (by norm_num)
  have hrlt : accF % 2 ^ bitsF < 2 ^ bitsF := Nat.mod_lt _ hKpos
  have hXY : SV 8 out = SV 8 data := by
    rcases Nat.lt_trichotomy (SV 8 out) (SV 8 data) with h | h | h
    · exfalso
      have h2 : (SV 8 out + 1) * 2 ^ bitsF ≤ SV 8 data * 2 ^ bitsF :=
        Nat.mul_le_mul_right _ (by omega)
      rw [add_mul, one_mul] at h2
      set r := accF % 2 ^ bitsF with hr
      set A := SV 8 out * 2 ^ bitsF with hA
      set B := SV 8 data * 2 ^ bitsF with hB
      set K := (2:Nat) ^ bitsF with hK
      omega
    · exact h
    · exfalso
      have h2 : (SV 8 data + 1) * 2 ^ bitsF ≤ SV 8 out * 2 ^ bitsF :=
        Nat.mul_le_mul_right _ (by omega)
      rw [add_mul, one_mul] at h2
      set r := accF % 2 ^ bitsF with hr
      set A := SV 8 out * 2 ^ bitsF with hA
      set B := SV 8 data * 2 ^ bitsF with hB
      set K := (2:Nat) ^ bitsF with hK
      omega
  have hr0 : accF % 2 ^ bitsF = 0 := by
    rw [hXY] at hsv2
    omega
  have houteq : out = data := SV_inj 8 out data hlenod hout hd (by rw [hXY])
  have hpad : js32 (accF <<< (8 - bitsF)) &&& 255 = 0 := by
    rw [js32, Nat.shiftLeft_eq, and255_mod]
    interval_cases bitsF <;> omega
  show convertBits values 5 8 false = .ok data
  dsimp only [convertBits]
  rw [show ((1:Nat) <<< 8) - 1 = 255 by decide, hloop]
  dsimp only
  rw [if_neg (by simp), if_neg ?_, houteq]
  rw [hpad]
  omega

theorem genFold_xor (p : Nat → Prop) [DecidablePred p] (g : Nat → Nat)
    (l : List Nat) : ∀ (c d : Nat),
    l.foldl (fun a i => if p i then a ^^^ g i else a) (c ^^^ d) =
      l.foldl (fun a i => if p i then a ^^^ g i else a) c ^^^ d := by
  induction l with
  | nil => intro c d; rfl
  | cons i rest ih =>
    intro c d
    rw [List.foldl_cons, List.foldl_cons]
    by_cases h : p i
    · rw [if_pos h, if_pos h,
        show c ^^^ d ^^^ g i = (c ^^^ g i) ^^^ d by
          rw [Nat.xor_assoc, Nat.xor_comm d (g i), ← Nat.xor_assoc],
        ih]
    · rw [if_neg h, if_neg h, ih]

theorem polymodStep_zero_xor (c v : Nat) : polymodStep c v = polymodStep c 0 ^^^ v := by
  dsimp only [polymodStep]
  rw [show ((c &&& 0x1ffffff) <<< 5) ^^^ 0 = (c &&& 0x1ffffff) <<< 5 from Nat.xor_zero _]
  exact genFold_xor (fun i => (c >>> 25 >>> i) &&& 1 ≠ 0) (fun i => GEN.getD i 0) _ _ v

theorem polymodStep_xor (c d v : Nat) (hd : d < 2 ^ 25) :
    polymodStep (c ^^^ d) v = polymodStep c v ^^^ d <<< 5 := by
  dsimp only [polymodStep]
  have htop : (c ^^^ d) >>> 25 = c >>> 25 := by
    rw [xorShiftRight, Nat.shiftRight_eq_div_pow d 25, Nat.div_eq_of_lt hd, Nat.xor_zero]
  rw [htop]
  have hmask : (c ^^^ d) &&& 0x1ffffff = (c &&& 0x1ffffff) ^^^ d := by
    rw [Nat.and_xor_distrib_right]
    congr 1
    rw [show (0x1ffffff : Nat) = 2 ^ 25 - 1 by norm_num, Nat.and_pow_two_sub_one_eq_mod,
      Nat.mod_eq_of_lt hd]
  rw [hmask, xorShiftLeft,
    show (((c &&& 0x1ffffff) <<< 5) ^^^ d <<< 5) ^^^ v
        = (((c &&& 0x1ffffff) <<< 5) ^^^ v) ^^^ d <<< 5 by
      rw [Nat.xor_assoc, Nat.xor_comm (d <<< 5) v, ← Nat.xor_assoc]]
  exact genFold_xor (fun i => (c >>> 25 >>> i) &&& 1 ≠ 0) (fun i => GEN.getD i 0) _ _ _

theorem polymod_foldl_xor (vs : List Nat) : ∀ (c d : Nat),
    d * 2 ^ (5 * vs.length) < 2 ^ 30 →
    vs.foldl polymodStep (c ^^^ d) = vs.foldl polymodStep c ^^^ d <<< (5 * vs.length) := by
  induction vs with
  | nil =>
    intro c d _
    simp [Nat.shiftLeft_zero]
  | cons v rest ih =>
    intro c d hd
    rw [List.length_cons] at hd
    have hd25 : d < 2 ^ 25 := by
      by_contra hcon
      push_neg at hcon
      have h32 : (32 : Nat) ≤ 2 ^ (5 * (rest.length + 1)) := by
        calc (32 : Nat) = 2 ^ 5 := by norm_num
          _ ≤ 2 ^ (5 * (rest.length + 1)) := Nat.pow_le_pow_right (by norm_num) (by omega)
      have hbig : 2 ^ 25 * 32 ≤ d * 2 ^ (5 * (rest.length + 1)) := Nat.mul_le_mul hcon h32
      norm_num at hbig
      omega
    rw [List.foldl_cons, List.foldl_cons, polymodStep_xor c d v hd25]
    have hbound : d <<< 5 * 2 ^ (5 * rest.length) < 2 ^ 30 := by
      rw [Nat.shiftLeft_eq, mul_assoc, ← pow_add,
        show 5 + 5 * rest.length = 5 * (rest.length + 1) by ring]
      exact hd
    rw [ih (polymodStep c v) (d <<< 5) hbound, ← Nat.shiftLeft_add,
      show 5 + 5 * rest.length = 5 * (v :: rest).length by rw [List.length_cons]; ring]

theorem GEN_getD_lt (i : Nat) : GEN.getD i 0 < 2 ^ 30 := by
  rcases i with _ | _ | _ | _ | _ | n
  · decide
  · decide
  · decide
  · decide
  · decide
  · rw [List.getD_eq_default]
    · norm_num
    · simp [GEN]

theorem polymodStep_lt (c v : Nat) (hv : v < 2 ^ 30) : polymodStep c v < 2 ^ 30 := by
  dsimp only [polymodStep]
  have hbase : ((c &&& 0x1ffffff) <<< 5) ^^^ v < 2 ^ 30 := by
    apply Nat.xor_lt_two_pow ?_ hv
    rw [Nat.shiftLeft_eq]
    calc (c &&& 0x1ffffff) * 2 ^ 5 ≤ 0x1ffffff * 2 ^ 5 :=
          Nat.mul_le_mul_right _ Nat.and_le_right
      _ < 2 ^ 30 := by norm_num
  have hfold : ∀ (l : List Nat) (s : Nat), s < 2 ^ 30 →
      l.foldl (fun a i => if (c >>> 25 >>> i) &&& 1 ≠ 0 then a ^^^ GEN.getD i 0 else a) s
        < 2 ^ 30 := by
    intro l
    induction l with
    | nil => intro s hs; exact hs
    | cons i rest ih =>
      intro s hs
      rw [List.foldl_cons]
      by_cases h : (c >>> 25 >>> i) &&& 1 ≠ 0
      · rw [if_pos h]
        exact ih _ (Nat.xor_lt_two_pow hs (GEN_getD_lt i))
      · rw [if_neg h]
        exact ih _ hs
  exact hfold _ _ hbase

theorem polymod_fold_lt (vs : List Nat) : ∀ c, c < 2 ^ 30 → (∀ v ∈ vs, v < 2 ^ 30) →
    vs.foldl polymodStep c < 2 ^ 30 := by
  induction vs with
  | nil => intro c hc _; exact hc
  | cons v rest ih =>
    intro c hc hv
    rw [List.foldl_cons]
    exact ih _ (polymodStep_lt c v (hv v (List.mem_cons_self v rest)))
      (fun x hx => hv x (List.mem_cons_of_mem v hx))

theorem polymod_lt (vs : List Nat) (h : ∀ v ∈ vs, v < 2 ^ 30) : polymod vs < 2 ^ 30 :=
  polymod_fold_lt vs 1 (by norm_num) h

theorem foldl_digits (ds : List Nat) : ∀ c, ds.length ≤ 6 → (∀ d ∈ ds, d < 32) →
    ds.foldl polymodStep c =
      (List.replicate ds.length 0).foldl polymodStep c ^^^ XS ds := by
  induction ds with
  | nil => intro c _ _; simp [XS]
  | cons d rest ih =>
    intro c hlen hd
    have hd32 : d < 32 := hd d (List.mem_cons_self d rest)
    have hrlen : rest.length ≤ 5 := by
      simp only [List.length_cons] at hlen
      omega
    have hbound : d * 2 ^ (5 * rest.length) < 2 ^ 30 := by
      calc d * 2 ^ (5 * rest.length) ≤ 31 * 2 ^ 25 :=
            Nat.mul_le_mul (by omega) (Nat.pow_le_pow_right (by norm_num) (by omega))
        _ < 2 ^ 30 := by norm_num
    rw [List.foldl_cons, polymodStep_zero_xor, polymod_foldl_xor rest _ _ hbound,
      ih (polymodStep c 0) (by omega) (fun x hx => hd x (List.mem_cons_of_mem d hx))]
    rw [List.length_cons, List.replicate_succ, List.foldl_cons]
    show _ ^^^ XS rest ^^^ d <<< (5 * rest.length) = _ ^^^ XS (d :: rest)
    rw [XS, Nat.xor_assoc, Nat.xor_comm (XS rest) (d <<< (5 * rest.length))]

theorem XS_digits (m : Nat) (hm : m < 2 ^ 30) :
    XS ((List.range 6).map (fun i => (m >>> (5 * (5 - i))) &&& 31)) = m := by
  rw [show List.range 6 = [0, 1, 2, 3, 4, 5] by rfl]
  simp only [List.map_cons, List.map_nil, XS, List.length_cons, List.length_nil,
    List.length_map]
  norm_num [Nat.xor_zero, Nat.shiftLeft_zero, Nat.shiftRight_zero]
  have h0 : m &&& 31 < 2 ^ 5 := by
    rw [and31_mod]
    omega
  rw [shiftLeft_xor_of_lt _ _ _ h0]
  have h1 : (m >>> 5 &&& 31) * 2 ^ 5 + (m &&& 31) < 2 ^ 10 := by
    have a1 := and31_lt (m >>> 5)
    have a2 := and31_lt m
    omega
  rw [shiftLeft_xor_of_lt _ _ _ h1]
  have h2 : (m >>> 10 &&& 31) * 2 ^ 10 + ((m >>> 5 &&& 31) * 2 ^ 5 + (m &&& 31)) < 2 ^ 15 := by
    have a1 := and31_lt (m >>> 10)
    have a2 := and31_lt (m >>> 5)
    have a3 := and31_lt m
    omega
  rw [shiftLeft_xor_of_lt _ _ _ h2]
  have h3 : (m >>> 15 &&& 31) * 2 ^ 15
      + ((m >>> 10 &&& 31) * 2 ^ 10 + ((m >>> 5 &&& 31) * 2 ^ 5 + (m &&& 31))) < 2 ^ 20 := by
    have a1 := and31_lt (m >>> 15)
    have a2 := and31_lt (m >>> 10)
    have a3 := and31_lt (m >>> 5)
    have a4 := and31_lt m
    omega
  rw [shiftLeft_xor_of_lt _ _ _ h3]
  have h4 : (m >>> 20 &&& 31) * 2 ^ 20 + ((m >>> 15 &&& 31) * 2 ^ 15
      + ((m >>> 10 &&& 31) * 2 ^ 10 + ((m >>> 5 &&& 31) * 2 ^ 5 + (m &&& 31)))) < 2 ^ 25 := by
    have a1 := and31_lt (m >>> 20)
    have a2 := and31_lt (m >>> 15)
    have a3 := and31_lt (m >>> 10)
    have a4 := and31_lt (m >>> 5)
    have a5 := and31_lt m
    omega
  rw [shiftLeft_xor_of_lt _ _ _ h4]
  simp only [and31_mod, Nat.shiftRight_eq_div_pow]
  omega

theorem polymod_append (a b : List Nat) : polymod (a ++ b) = b.foldl polymodStep (polymod a) := by
  dsimp only [polymod]
  rw [List.foldl_append]

theorem createChecksum_lt (hrp : List Char) (values : List Nat) :
    ∀ v ∈ createChecksum hrp values, v < 32 := by
  intro v hv
  dsimp only [createChecksum] at hv
  rcases List.mem_map.mp hv with ⟨i, _, rfl⟩
  exact and31_lt _

theorem createChecksum_length (hrp : List Char) (values : List Nat) :
    (createChecksum hrp values).length = 6 := by
  dsimp only [createChecksum]
  rw [List.length_map, List.length_range]

theorem hrpExpand_lt (hrp : List Char) (h : ∀ c ∈ hrp, c.toNat < 128) :
    ∀ v ∈ hrpExpand hrp, v < 2 ^ 30 := by
  intro v hv
  dsimp only [hrpExpand] at hv
  rcases List.mem_append.mp hv with h1 | h1
  · rcases List.mem_append.mp h1 with h2 | h2
    · rcases List.mem_map.mp h2 with ⟨c, hc, rfl⟩
      have hcb := h c hc
      rw [Nat.shiftRight_eq_div_pow]
      have hd := Nat.div_le_self c.toNat (2 ^ 5)
      omega
    · simp at h2
      subst h2
      norm_num
  · rcases List.mem_map.mp h1 with ⟨c, hc, rfl⟩
    have := and31_lt c.toNat
    omega

theorem verify_create (hrp : List Char) (values : List Nat)
    (hv : ∀ v ∈ hrpExpand hrp ++ values, v < 2 ^ 30) :
    verifyChecksum hrp (values ++ createChecksum hrp values) = true := by
  have hm30 : polymod (hrpExpand hrp ++ values ++ [0, 0, 0, 0, 0, 0]) ^^^ 1 < 2 ^ 30 := by
    apply Nat.xor_lt_two_pow ?_ (by norm_num)
    apply polymod_lt
    intro x hx
    rcases List.mem_append.mp hx with h1 | h1
    · exact hv x h1
    · simp at h1
      subst h1
      norm_num
  have key := foldl_digits
    ((List.range 6).map (fun i =>
      ((polymod (hrpExpand hrp ++ values ++ [0, 0, 0, 0, 0, 0]) ^^^ 1) >>> (5 * (5 - i))) &&& 31))
    (polymod (hrpExpand hrp ++ values)) (by simp)
    (by
      intro d hd
      rcases List.mem_map.mp hd with ⟨i, _, rfl⟩
      exact and31_lt _)
  rw [XS_digits _ hm30, List.length_map, List.length_range,
    show List.replicate 6 (0 : Nat) = [0, 0, 0, 0, 0, 0] by rfl,
    (polymod_append (hrpExpand hrp ++ values) [0, 0, 0, 0, 0, 0]).symm,
    ← Nat.xor_assoc, Nat.xor_self, Nat.zero_xor] at key
  dsimp only [verifyChecksum]
  rw [show createChecksum hrp values = (List.range 6).map (fun i =>
        ((polymod (hrpExpand hrp ++ values ++ [0, 0, 0, 0, 0, 0]) ^^^ 1)
          >>> (5 * (5 - i))) &&& 31) from by dsimp only [createChecksum],
    ← List.append_assoc, polymod_append, key]
  rfl

theorem jsLastIndexOf_neg (l : List Char) (c : Char) (h : c ∉ l) :
    jsLastIndexOf l c = -1 := by
  induction l with
  | nil => rfl
  | cons x xs ih =>
    have hx : ¬x = c := by
      intro he
      exact h (he ▸ List.mem_cons_self x xs)
    have hxs : c ∉ xs := fun hm => h (List.mem_cons_of_mem x hm)
    dsimp only [jsLastIndexOf]
    rw [ih hxs, if_neg (by norm_num), if_neg hx]

theorem jsLastIndexOf_append_cons (hrp rest : List Char) (h : '1' ∉ rest) :
    jsLastIndexOf (hrp ++ '1' :: rest) '1' = (hrp.length : Int) := by
  induction hrp with
  | nil =>
    dsimp only [List.nil_append, jsLastIndexOf]
    rw [jsLastIndexOf_neg rest '1' h, if_neg (by norm_num), if_pos rfl]
    simp
  | cons x xs ih =>
    dsimp only [List.cons_append, jsLastIndexOf]
    rw [ih, if_pos (by positivity)]
    simp [List.length_cons]

theorem alpha_facts : ∀ v : Nat, v < 32 →
    jsToLower (BECH32_ALPHABET.getD v '?') = BECH32_ALPHABET.getD v '?' ∧
    BECH32_ALPHABET.contains (BECH32_ALPHABET.getD v '?') = true ∧
    alphaIndex BECH32_ALPHABET (BECH32_ALPHABET.getD v '?') = v ∧
    ¬BECH32_ALPHABET.getD v '?' = '1' := by decide

theorem charsToValues_map (vs : List Nat) (h : ∀ v ∈ vs, v < 32) :
    charsToValues (vs.map (fun v => BECH32_ALPHABET.getD v '?')) = some vs := by
  induction vs with
  | nil => rfl
  | cons v rest ih =>
    have hv := h v (List.mem_cons_self v rest)
    obtain ⟨h1, h2, h3, _⟩ := alpha_facts v hv
    dsimp only [List.map_cons, charsToValues]
    rw [h1, if_pos h2, ih (fun x hx => h x (List.mem_cons_of_mem v hx)), h3]
    rfl

theorem mapped_no_one (vs : List Nat) (h : ∀ v ∈ vs, v < 32) :
    '1' ∉ vs.map (fun v => BECH32_ALPHABET.getD v '?') := by
  intro hm
  rcases List.mem_map.mp hm with ⟨v, hv, he⟩
  exact absurd he (alpha_facts v (h v hv)).2.2.2

/-- C9: bech32 round-trip.  For every human-readable prefix `hrp` (nonempty,
ASCII, so that `charCodeAt` semantics coincide with the model) and every byte
string `data`, `bech32Decode (bech32Encode hrp data)` returns exactly
`(hrp, data)`, with the standard alphabet, the standard generator polynomial
`GEN` and xor-constant 1 in the checksum. -/
theorem C9_bech32_roundtrip (hrp : List Char) (data : List Nat)
    (hhrp : hrp ≠ []) (hch : ∀ c ∈ hrp, c.toNat < 128) (hdata : ∀ b ∈ data, b < 256) :
    (bech32Encode hrp data).bind bech32Decode = Except.ok (hrp, data) := by
  obtain ⟨values, p, hcb, hv32, hp, hlen, hsv⟩ := convertBits85 data hdata
  have henc : bech32Encode hrp data = .ok (hrp ++ '1' ::
      (values ++ createChecksum hrp values).map (fun v => BECH32_ALPHABET.getD v '?')) := by
    dsimp only [bech32Encode]
    rw [hcb]
  rw [henc]
  dsimp only [Except.bind]
  have hcomb32 : ∀ v ∈ values ++ createChecksum hrp values, v < 32 := by
    intro v hv
    rcases List.mem_append.mp hv with h | h
    · exact hv32 v h
    · exact createChecksum_lt hrp values v h
  have hno1 : '1' ∉ (values ++ createChecksum hrp values).map
      (fun v => BECH32_ALPHABET.getD v '?') := mapped_no_one _ hcomb32
  have hpos : jsLastIndexOf (hrp ++ '1' ::
      (values ++ createChecksum hrp values).map (fun v => BECH32_ALPHABET.getD v '?')) '1'
      = (hrp.length : Int) := jsLastIndexOf_append_cons hrp _ hno1
  have hhrplen : 1 ≤ hrp.length := by
    rcases hrp with _ | ⟨c, t⟩
    · exact absurd rfl hhrp
    · simp
  have hmlen : ((values ++ createChecksum hrp values).map
      (fun v => BECH32_ALPHABET.getD v '?')).length = values.length + 6 := by
    rw [List.length_map, List.length_append, createChecksum_length]
  dsimp only [bech32Decode]
  rw [hpos, Int.toNat_natCast]
  rw [if_neg (by
    push_neg
    constructor
    · omega
    · rw [List.length_append, List.length_cons, hmlen]
      push_cast
      omega)]
  have hdrop : (hrp ++ '1' :: (values ++ createChecksum hrp values).map
      (fun v => BECH32_ALPHABET.getD v '?')).drop (hrp.length + 1)
      = (values ++ createChecksum hrp values).map (fun v => BECH32_ALPHABET.getD v '?') := by
    rw [show hrp ++ '1' :: (values ++ createChecksum hrp values).map
        (fun v => BECH32_ALPHABET.getD v '?')
        = (hrp ++ ['1']) ++ (values ++ createChecksum hrp values).map
          (fun v => BECH32_ALPHABET.getD v '?') by simp]
    exact List.drop_left' (by simp)
  have htake : (hrp ++ '1' :: (values ++ createChecksum hrp values).map
      (fun v => BECH32_ALPHABET.getD v '?')).take hrp.length = hrp := List.take_left hrp _
  rw [hdrop, charsToValues_map _ hcomb32]
  dsimp only
  rw [htake, verify_create hrp values (by
    intro v hv
    rcases List.mem_append.mp hv with h | h
    · exact hrpExpand_lt hrp hch v h
    · have := hv32 v h
      omega)]
  rw [if_pos rfl]
  have htake6 : (values ++ createChecksum hrp values).take
      ((values ++ createChecksum hrp values).length - 6) = values := by
    rw [List.length_append, createChecksum_length]
    exact List.take_left' (by omega)
  rw [htake6, convertBits58 data values hdata hv32 p hp hlen hsv]

/-- Witness for `C9_bech32_roundtrip` at hrp `"bc"`, data `[1, 255]`. -/
theorem C9_bech32_roundtrip_witness :
    (['b', 'c'] : List Char) ≠ [] ∧ (∀ c ∈ (['b', 'c'] : List Char), c.toNat < 128) ∧
    (∀ b ∈ [1, 255], b < 256) ∧
    (bech32Encode ['b', 'c'] [1, 255]).bind bech32Decode = Except.ok (['b', 'c'], [1, 255]) :=
  ⟨by decide, by decide, by decide,
    C9_bech32_roundtrip ['b', 'c'] [1, 255] (by decide) (by decide) (by decide)⟩

end Bitchat
